import Mathlib

/-!
Verification of the bills-OCR HTTP service (`src/main.py`).

Strings are modelled as `List Char` (Python `str` is a sequence of code
points).  The text-normalisation function `clean_ocr_text` and the
`process_images` request handler are embedded as executable Lean functions.
External collaborators (the Tesseract OCR engine, the PDF rasterizer, the
generative-model API and the JSON parser of the standard library) are
modelled as an `Oracle` of deterministic functions supplied per request, and
the handler additionally records a trace of the external calls it makes, so
that temporal claims ("no OCR work happens before …") can be stated.
-/

namespace BillsOCR
open List

/-- Python whitespace (the ASCII characters matched by `str.strip()` and
regex `\s`): space, tab, newline, carriage return, vertical tab, form feed. -/
def isWS (c : Char) : Bool :=
  c == ' ' || c == '\t' || c == '\n' || c == '\x0d' || c == '\x0b' || c == '\x0c'

/-- Characters matched by the regex class `[ \t]`. -/
def isSpTab (c : Char) : Bool := c == ' ' || c == '\t'

/-- Python `str.strip()`: remove leading and trailing whitespace. -/
def stripWS (l : List Char) : List Char :=
  ((l.dropWhile isWS).reverse.dropWhile isWS).reverse

/-- `re.sub(r'[ \t]+', ' ', text)` (main.py line 75): each maximal run of
spaces/tabs is replaced by a single space.  `re.sub` scans left to right;
at a space/tab it consumes the maximal `[ \t]+` run (greedy) and emits
`' '`, otherwise it copies the character. -/
def sp : List Char → List Char
  | [] => []
  | c :: r =>
    if isSpTab c then ' ' :: sp (r.dropWhile isSpTab)
    else c :: sp r
  termination_by l => l.length
  decreasing_by
    · simp only [List.length_cons]
      have := (List.dropWhile_sublist (p := isSpTab) (l := r)).length_le
      omega
    · simp [Nat.lt_succ_self]

/-- The part of `w` that follows its last `'\n'` (all of `w` if it has none). -/
def afterNl (w : List Char) : List Char :=
  (w.reverse.takeWhile (fun c => !(c == '\n'))).reverse

/-- `re.sub(r'\n\s*\n\s*\n', '\n\n', text)` (main.py line 76).  A (greedy,
leftmost) match starts at a `'\n'` whose following maximal whitespace run
contains at least two more `'\n'`; the match then extends to the last
`'\n'` of that run and is replaced by `"\n\n"`, after which scanning
resumes past the match. -/
def nl : List Char → List Char
  | [] => []
  | c :: r =>
    if h : c = '\n' ∧ 2 ≤ (r.takeWhile isWS).count '\n' then
      '\n' :: '\n' :: nl (afterNl (r.takeWhile isWS) ++ r.dropWhile isWS)
    else c :: nl r
  termination_by l => l.length
  decreasing_by
    · simp only [List.length_cons, List.length_append]
      have h1 : '\n' ∈ r.takeWhile isWS := by
        have h2 := h.2
        have : 0 < (r.takeWhile isWS).count '\n' := by omega
        exact List.count_pos_iff.mp this
      have hgen : ∀ (l : List Char), '\n' ∈ l →
          (l.takeWhile (fun c => !(c == '\n'))).length < l.length := by
        intro l hx
        induction l with
        | nil => cases hx
        | cons c rr ih =>
          rw [List.takeWhile_cons]
          by_cases hc : c = '\n'
          · rw [if_neg (by simp [hc])]
            simp
          · have hxr : '\n' ∈ rr := by
              rcases List.mem_cons.mp hx with hcase | hcase
              · exact absurd hcase.symm hc
              · exact hcase
            rw [if_pos (by simp [hc])]
            simp only [List.length_cons]
            exact Nat.succ_lt_succ (ih hxr)
      have h2 : (afterNl (r.takeWhile isWS)).length < (r.takeWhile isWS).length := by
        unfold afterNl
        rw [List.length_reverse]
        have : ((r.takeWhile isWS).reverse.takeWhile (fun c => !(c == '\n'))).length
            < (r.takeWhile isWS).reverse.length :=
          hgen _ (List.mem_reverse.mpr h1)
        rw [List.length_reverse] at this
        exact this
      have h3 : (r.takeWhile isWS).length + (r.dropWhile isWS).length = r.length := by
        rw [← List.length_append, List.takeWhile_append_dropWhile]
      omega
    · simp [Nat.lt_succ_self]

/-- Python `str.replace(pat, new)` for nonempty `pat`: replace every
(leftmost, non-overlapping) occurrence of `pat` by `new`, scanning left to
right; freshly inserted text is not rescanned. -/
def repl (pat new : List Char) : List Char → List Char
  | [] => []
  | c :: r =>
    if h : pat ≠ [] ∧ pat <+: (c :: r) then
      new ++ repl pat new ((c :: r).drop pat.length)
    else c :: repl pat new r
  termination_by l => l.length
  decreasing_by
    · simp only [List.length_cons, List.length_drop]
      have : 0 < pat.length := List.length_pos.mpr h.1
      omega
    · simp [Nat.lt_succ_self]

/-- The fixed OCR-misread substitution table of `clean_ocr_text`
(main.py lines 60-69), in insertion order. -/
def replTable : List (List Char × List Char) :=
  [("Lable".data, "Label".data),
   ("Chola".data, "Chola".data),
   ("+|bCAmt:+/2¢".data, "SubTotal:".data),
   ("Phn:".data, "Phone:".data),
   ("Qty:".data, "Quantity:".data),
   ("Amt:".data, "Amount:".data),
   ("Cewkehy".data, "Company".data),
   ("Srey".data, "Store".data)]

/-- The loop `for old, new in replacements.items(): text = text.replace(old, new)`
(main.py lines 71-72). -/
def applyRepl (l : List Char) : List Char :=
  replTable.foldl (fun acc kv => repl kv.1 kv.2 acc) l

/-- `re.sub(r'(\d+)\.(\d+)', r'\1.\2', text)` (main.py line 79): the
replacement template reproduces each match verbatim (`\1` "." `\2` is
exactly the matched text), so this substitution is the identity. -/
def digitFix (l : List Char) : List Char := l

/-- `clean_ocr_text` (main.py lines 50-81): falsy input is returned
unchanged; otherwise the substitution table is applied, whitespace is
collapsed, and the result is stripped. -/
def clean_ocr_text (text : List Char) : List Char :=
  if text = [] then text
  else stripWS (digitFix (nl (sp (applyRepl text))))

/-- `clean_ocr_text` on an optional string: Python's `if not text: return text`
also covers a `None` argument. -/
def clean_ocr_text_opt : Option (List Char) → Option (List Char)
  | none => none
  | some t => some (clean_ocr_text t)

/-! ### Occurrence analysis for `repl`

An occurrence of a word `k` in the output of `repl pat new l` either comes
from an occurrence of `k` in `l`, or it overlaps an inserted copy of `new`;
the latter is only possible when `k` and `new` overlap in one of finitely
many ways, captured by the decidable predicate `Bad`. -/

/-- `m <+: a ++ b` splits: either `m` stops inside `a`, or it is `a`
followed by a prefix of `b`. -/
def badB (k new : List Char) : Bool :=
  decide (k <:+: new) || decide (new <:+: k) ||
    (List.range k.length).any (fun i =>
      decide (0 < i) && (decide (k.drop i <+: new) || decide (k.take i <:+ new)))

/-- Proposition form of `badB`. -/
def Bad (k new : List Char) : Prop := badB k new = true

instance badDecidable (k new : List Char) : Decidable (Bad k new) :=
  inferInstanceAs (Decidable (badB k new = true))

def hasTriple : List Char → Bool
  | [] => false
  | c :: r => (c == '\n' && decide (2 ≤ (r.takeWhile isWS).count '\n')) || hasTriple r

/-- `nl` is the identity where `\n\s*\n\s*\n` never matches. -/
inductive Json where
  | null : Json
  | bool (b : Bool) : Json
  | num (n : Int) : Json
  | str (s : List Char) : Json
  | arr (elems : List Json) : Json
  | obj (fields : List (List Char × Json)) : Json

/-- One uploaded file: declared filename, declared MIME type, raw bytes. -/
structure UploadFile where
  filename : List Char
  content_type : List Char
  contents : List Nat
deriving DecidableEq

/-- Observable external calls made while serving one request. -/
inductive Ev where
  | pdfConvert (bytes : List Nat) : Ev
  | ocr (img : Nat) (config : List Char) : Ev
  | modelCall (prompt : List Char) : Ev
deriving DecidableEq

/-- Deterministic model of the external collaborators for one request:
`pdf2image.convert_from_bytes`, `PIL.Image.open`,
`pytesseract.image_to_string`, the Gemini `generate_content` call (returning
the response text), and `json.loads`.  Failure values model raised
exceptions (carrying `str(e)`). -/
structure Oracle where
  convertFromBytes : List Nat → Except (List Char) (List Nat)
  imageOpen : List Nat → Except (List Char) Nat
  imageToString : Nat → List Char → Except (List Char) (List Char)
  generate : List Char → Except (List Char) (List Char)
  jsonLoads : List Char → Except (List Char) Json

/-- `custom_config` (main.py line 122). -/
def config1 : List Char :=
  ("--oem 3 --psm 6 -c tessedit_char_whitelist=0123456789ABCDEFGHIJKLMNOPQRSTUVWXYZabcdefghijklmnopqrstuvwxyz .,/-:()+".data)

/-- `config2` (main.py line 128). -/
def config2 : List Char := ("--oem 3 --psm 4".data)

/-- `config3` (main.py line 132). -/
def config3 : List Char := ("--oem 3 --psm 3".data)

/-- `pytesseract.image_to_string` called without a config (PDF pages,
main.py line 113) uses the empty config string. -/
def defaultConfig : List Char := []

/-- `max(texts, key=len)` for `texts = [text1, text2, text3]`: Python\x27s
`max` keeps the first element and replaces it only on a strictly greater
key. -/
def pickLongest (t1 t2 t3 : List Char) : List Char :=
  let b2 := if t2.length > t1.length then t2 else t1
  if t3.length > b2.length then t3 else b2

/-- The per-page OCR loop of the PDF branch (main.py lines 112-115): each
page is OCRed in order with the default config and contributes
`text + "\n"`; an exception aborts the remaining pages. -/
def ocrPages (O : Oracle) : List Nat → List Ev × Except (List Char) (List Char)
  | [] => ([], .ok [])
  | img :: rest =>
    match O.imageToString img defaultConfig with
    | .error e => ([.ocr img defaultConfig], .error e)
    | .ok t =>
      let res := ocrPages O rest
      (.ocr img defaultConfig :: res.1,
        match res.2 with
        | .error e => .error e
        | .ok ts => .ok (t ++ '\n' :: ts))

/-- Extraction of one file inside the `try` block (main.py lines 106-141),
returning the text this file appends between its banners (including the
trailing newline(s)) or the raised exception. -/
def extractFile (O : Oracle) (f : UploadFile) : List Ev × Except (List Char) (List Char) :=
  if f.content_type = ("application/pdf".data) then
    match O.convertFromBytes f.contents with
    | .error e => ([.pdfConvert f.contents], .error e)
    | .ok imgs =>
      let res := ocrPages O imgs
      (.pdfConvert f.contents :: res.1, res.2)
  else
    match O.imageOpen f.contents with
    | .error e => ([], .error e)
    | .ok img =>
      match O.imageToString img config1 with
      | .error e => ([.ocr img config1], .error e)
      | .ok t1 =>
        match O.imageToString img config2 with
        | .error e => ([.ocr img config1, .ocr img config2], .error e)
        | .ok t2 =>
          match O.imageToString img config3 with
          | .error e => ([.ocr img config1, .ocr img config2, .ocr img config3], .error e)
          | .ok t3 =>
            ([.ocr img config1, .ocr img config2, .ocr img config3],
              .ok (pickLongest t1 t2 t3 ++ ['\n']))

/-- Decimal digits, structurally recursive on a fuel bound (`fuel > n`
suffices, see `natRepr`). -/
def natReprAux : Nat → Nat → List Char
  | 0, _ => []
  | fuel + 1, n =>
    if n < 10 then [Nat.digitChar n]
    else natReprAux fuel (n / 10) ++ [Nat.digitChar (n % 10)]

/-- Decimal representation of a natural number (Python `f"{n}"`). -/
def natRepr (n : Nat) : List Char := natReprAux (n + 1) n

/-- `\x27=\x27*60` (main.py lines 102, 104, 144, 146). -/
def eqLine : List Char := List.replicate 60 '='

/-- `f"BILL NUMBER \x7bbill_counter\x7d - START"` (main.py line 103). -/
def startBanner (n : Nat) : List Char :=
  ("BILL NUMBER ".data) ++ natRepr n ++ (" - START".data)

/-- `f"BILL NUMBER \x7bbill_counter\x7d - END"` (main.py line 145). -/
def endBanner (n : Nat) : List Char :=
  ("BILL NUMBER ".data) ++ natRepr n ++ (" - END".data)

/-- The header divider appended before a file is processed
(main.py lines 102-104): `"\\n\\n" + "="*60 + "\\n"` then the START banner
line, then `"="*60 + "\\n\\n"`. -/
def billHeader (n : Nat) : List Char :=
  '\n' :: '\n' :: (eqLine ++ ('\n' :: (startBanner n ++ ('\n' :: (eqLine ++ ['\n', '\n'])))))

/-- The footer divider appended after successful extraction
(main.py lines 144-146): `"\\n" + "="*60 + "\\n"` then the END banner line,
then `"="*60 + "\\n\\n"`. -/
def billFooter (n : Nat) : List Char :=
  '\n' :: (eqLine ++ ('\n' :: (endBanner n ++ ('\n' :: (eqLine ++ ['\n', '\n'])))))

/-- The MIME allow-list (main.py line 95). -/
def allowedTypes : List (List Char) :=
  [("image/jpeg".data), ("image/png".data), ("application/pdf".data)]

/-- The `for file in files` loop (main.py lines 93-151): validates the
declared type, extracts, frames the text between banners, and increments the
bill counter only after a successful extraction; the first failure aborts
the request. -/
def processLoop (O : Oracle) : List UploadFile → Nat → List Ev × Except (Nat × List Char) (List Char)
  | [], _ => ([], .ok [])
  | f :: rest, counter =>
    if f.content_type ∈ allowedTypes then
      let res := extractFile O f
      match res.2 with
      | .error e =>
        (res.1, .error (500, ("Error processing file ".data) ++ f.filename ++ (": ".data) ++ e))
      | .ok ftext =>
        let res' := processLoop O rest (counter + 1)
        (res.1 ++ res'.1,
          match res'.2 with
          | .error h => .error h
          | .ok restText =>
            .ok (billHeader counter ++ (ftext ++ (billFooter counter ++ restText))))
    else ([], .error (400, ("Unsupported file type: ".data) ++ f.content_type))

/-- The literal `prompt_template` string of main.py lines 164-238 (the text
between the triple quotes). -/
def promptTemplateStr : String :=
  "\n" ++
  "You are an intelligent document processor that extracts bill/invoice data from OCR text into a unified table.\n" ++
  "\n" ++
  "The text contains MULTIPLE DIFFERENT BILLS/INVOICES separated by clear dividers.\n" ++
  "\n" ++
  "BILL SEPARATION MARKERS:\n" ++
  "Each bill is clearly marked with:\n" ++
  "- \"BILL NUMBER X - START\" at the beginning\n" ++
  "- \"BILL NUMBER X - END\" at the end\n" ++
  "- \"=\" dividers around each bill\n" ++
  "- \"SOURCE FILE: filename\" to identify the original image\n" ++
  "\n" ++
  "CRITICAL INSTRUCTIONS FOR MULTIPLE BILLS:\n" ++
  "1. PROCESS each bill section separately (between START and END markers)\n" ++
  "2. Each bill has its own date - FIND AND USE the correct date for each bill\x27s items\n" ++
  "3. Each bill may have different shop names - apply the correct shop name to its items\n" ++
  "4. DO NOT mix dates between different bills\n" ++
  "5. Process each bill individually, then combine all items into one JSON array\n" ++
  "\n" ++
  "IMPORTANT DATE HANDLING:\n" ++
  "- IDENTIFY each bill\x27s individual date within its START/END section\n" ++
  "- Look for dates like: 27-Jan-2012, 12/03/2024, 15-Mar-2024, 12:18 PM 27-Jan-2012\n" ++
  "- Convert each date to DD/MM/YYYY format (example: \"27-Jan-2012\" becomes \"27/01/2012\")\n" ++
  "- Apply the CORRECT date to ALL items from that specific bill only\n" ++
  "- Handle various date formats: 02/03/2024, 02-March-2024, 2024-03-02, 02 Mar 2024, etc.\n" ++
  "- If a bill has no clear date, use current date (16/10/2025)\n" ++
  "\n" ++
  "BILL PROCESSING EXAMPLE:\n" ++
  "If you see:\n" ++
  "\x60\x60\x60\n" ++
  "=== BILL NUMBER 1 - START ===\n" ++
  "... 27-Jan-2012 ... Restaurant A ... Rice, Oil ...\n" ++
  "=== BILL NUMBER 1 - END ===\n" ++
  "\n" ++
  "=== BILL NUMBER 2 - START ===  \n" ++
  "... 15-Mar-2024 ... Grocery B ... Milk, Bread ...\n" ++
  "=== BILL NUMBER 2 - END ===\n" ++
  "\x60\x60\x60\n" ++
  "\n" ++
  "Process as:\n" ++
  "- Bill 1 items get date \"27/01/2012\" and shop \"Restaurant A\"\n" ++
  "- Bill 2 items get date \"15/03/2024\" and shop \"Grocery B\"\n" ++
  "\n" ++
  "PROCESSING STEPS:\n" ++
  "1. Split the text into separate bills\n" ++
  "2. For each bill: extract date, shop name, and all items\n" ++
  "3. Apply the bill\x27s date and shop name to all its items\n" ++
  "4. Combine all items from all bills into one JSON array\n" ++
  "\n" ++
  "Example with multiple bills:\n" ++
  "If you find:\n" ++
  "- Bill 1 (Date: 27/01/2012, Shop: Restaurant A) with items: Rice, Oil\n" ++
  "- Bill 2 (Date: 15/03/2024, Shop: Grocery B) with items: Milk, Bread\n" ++
  "- Bill 3 (Date: 20/05/2024, Shop: Store C) with items: Tea, Sugar\n" ++
  "\n" ++
  "Output should be:\n" ++
  "[\n" ++
  "  \x7b\"date\": \"27/01/2012\", \"shop_name\": \"Restaurant A\", \"item_name\": \"Rice\", \"quantity\": 1, \"unit_price\": 50, \"total_amount\": 50\x7d,\n" ++
  "  \x7b\"date\": \"27/01/2012\", \"shop_name\": \"Restaurant A\", \"item_name\": \"Oil\", \"quantity\": 1, \"unit_price\": 150, \"total_amount\": 150\x7d,\n" ++
  "  \x7b\"date\": \"15/03/2024\", \"shop_name\": \"Grocery B\", \"item_name\": \"Milk\", \"quantity\": 2, \"unit_price\": 40, \"total_amount\": 80\x7d,\n" ++
  "  \x7b\"date\": \"15/03/2024\", \"shop_name\": \"Grocery B\", \"item_name\": \"Bread\", \"quantity\": 1, \"unit_price\": 25, \"total_amount\": 25\x7d,\n" ++
  "  \x7b\"date\": \"20/05/2024\", \"shop_name\": \"Store C\", \"item_name\": \"Tea\", \"quantity\": 1, \"unit_price\": 30, \"total_amount\": 30\x7d,\n" ++
  "  \x7b\"date\": \"20/05/2024\", \"shop_name\": \"Store C\", \"item_name\": \"Sugar\", \"quantity\": 1, \"unit_price\": 45, \"total_amount\": 45\x7d\n" ++
  "]\n" ++
  "\n" ++
  "Rules:\n" ++
  "- Use field names: date, shop_name, item_name, quantity, unit_price, total_amount\n" ++
  "- EVERY item must have the correct date from its specific bill\n" ++
  "- Clean up item names and fix obvious OCR errors\n" ++
  "- Calculate missing quantities or totals if needed\n" ++
  "- Return only valid JSON array, no explanations\n" ++
  "\n" ++
  "Text to process:\n" ++
  "__ALL_TEXT_PLACEHOLDER__\n" ++
  ""

/-- The prompt template as a character list. -/
def promptTemplate : List Char := promptTemplateStr.data

/-- Fence stripping and final strip applied to the model response
(main.py lines 244-253): strip, drop a leading ```json marker, drop a
trailing ``` marker, strip again. -/
def fenceStrip (resp : List Char) : List Char :=
  let raw0 := stripWS resp
  let raw1 := if ("```json".data) <+: raw0 then raw0.drop 7 else raw0
  let raw2 := if ("```".data) <:+ raw1 then raw1.take (raw1.length - 3) else raw1
  stripWS raw2

/-- The HTTP outcome of the handler: `\x7b"data": v\x7d` on success, or an
`HTTPException(status_code, detail)`. -/
inductive HRes where
  | ok (data : Json) : HRes
  | err (status : Nat) (detail : List Char) : HRes

/-- `prompt_template.replace("__ALL_TEXT_PLACEHOLDER__", cleaned_text)`
(main.py line 240). -/
def promptFor (allText : List Char) : List Char :=
  repl ("__ALL_TEXT_PLACEHOLDER__".data) (clean_ocr_text allText) promptTemplate

/-- True when the trace contains a call to the generative model. -/
def hasModelCall (evs : List Ev) : Bool :=
  evs.any fun e => match e with | .modelCall _ => true | _ => false

/-- The `process_images` handler (main.py lines 83-264), paired with the
trace of external calls it performs. -/
def process_images (O : Oracle) (files : List UploadFile) : List Ev × HRes :=
  if files = [] then ([], .err 400 ("No files provided".data))
  else
    let res := processLoop O files 1
    match res.2 with
    | .error sd => (res.1, .err sd.1 sd.2)
    | .ok allText =>
      if stripWS allText = [] then
        (res.1, .err 400 ("No text extracted from images".data))
      else
        let prompt := promptFor allText
        match O.generate prompt with
        | .error e =>
          (res.1 ++ [.modelCall prompt],
            .err 500 (("Error processing with Gemini: ".data) ++ e))
        | .ok resp =>
          let raw3 := fenceStrip resp
          match O.jsonLoads raw3 with
          | .ok v => (res.1 ++ [.modelCall prompt], .ok v)
          | .error e =>
            (res.1 ++ [.modelCall prompt],
              .err 500 (("Invalid JSON from Gemini: ".data) ++ raw3.take 200 ++
                ("... Error: ".data) ++ e))

/-! ### Handler lemmas -/

def fileJpg : UploadFile := ⟨("a.jpg".data), ("image/jpeg".data), [0]⟩

def fileTxt : UploadFile := ⟨("b.txt".data), ("text/plain".data), [1]⟩

def filePng : UploadFile := ⟨("c.png".data), ("image/png".data), [2]⟩

/-- A benign oracle: every OCR call reads "x", the model answers a fenced
JSON array, parsing succeeds. -/
def oracleOkX : Oracle where
  convertFromBytes := fun _ => .ok []
  imageOpen := fun _ => .ok 0
  imageToString := fun _ _ => .ok ("x".data)
  generate := fun _ => .ok ("```json [1] ```".data)
  jsonLoads := fun _ => .ok (Json.arr [Json.num 1])

/-- Oracle whose parses return a bare (non-array) JSON number. -/
def oracleNum : Oracle :=
  { oracleOkX with jsonLoads := fun _ => .ok (Json.num 7) }

/-- Oracle whose OCR always raises. -/
def oracleBoom : Oracle :=
  { oracleOkX with imageToString := fun _ _ => .error ("boom".data) }

/-- Oracle whose OCR reads only empty text. -/
def oracleBlank : Oracle :=
  { oracleOkX with
      imageToString := fun _ _ => .ok [],
      generate := fun _ => .ok ("[]".data),
      jsonLoads := fun _ => .ok (Json.arr []) }

/-- The `.ok` payload of a loop result (used to state witnesses). -/
def okPayload : Except (Nat × List Char) (List Char) → List Char
  | .ok t => t
  | .error _ => []

def exOk {ε α : Type} : Except ε α → Bool
  | .ok _ => true
  | .error _ => false

def occCount (pat : List Char) : List Char → Nat
  | [] => 0
  | c :: r => (if pat <+: (c :: r) then 1 else 0) + occCount pat r

/-- The framed text produced by the loop for the texts of the successfully
extracted files, starting at bill counter `c`. -/
def frames (c : Nat) : List (List Char) → List Char
  | [] => []
  | t :: rest => billHeader c ++ (t ++ (billFooter c ++ frames (c + 1) rest))

/-- Oracle whose OCR outputs never contain a banner line. -/
def oracleBFree (O : Oracle) : Prop :=
  ∀ img cfg t, O.imageToString img cfg = .ok t →
    ∀ n, occCount (startBanner n) t = 0 ∧ occCount (endBanner n) t = 0

theorem prefix_append_split {m a b : List Char} (h : m <+: a ++ b) :
    m <+: a ∨ ∃ m', m = a ++ m' ∧ m' <+: b := by
  rcases h with ⟨t, ht⟩
  rcases List.append_eq_append_iff.mp ht with ⟨a', ha, _⟩ | ⟨c', hc, hd⟩
  · exact Or.inl ⟨a', ha.symm⟩
  · exact Or.inr ⟨c', hc, ⟨t, hd.symm⟩⟩

/-- Trichotomy for an infix of an append: inside the left part, inside the
right part, or straddling the junction. -/
theorem infix_append_split {k a b : List Char} (h : k <:+: a ++ b) :
    k <:+: a ∨ k <:+: b ∨
      ∃ k₁ k₂, k = k₁ ++ k₂ ∧ k₁ ≠ [] ∧ k₂ ≠ [] ∧ k₁ <:+ a ∧ k₂ <+: b := by
  induction a with
  | nil => simpa using Or.inr (Or.inl (by simpa using h))
  | cons c a' ih =>
    rw [List.cons_append, List.infix_cons_iff] at h
    rcases h with h | h
    · match k, h with
      | [], _ => exact Or.inl List.nil_infix
      | x :: k', h =>
        obtain ⟨hxc, hk'⟩ := List.cons_prefix_cons.mp h
        rcases prefix_append_split hk' with h' | ⟨m', hm', hm'p⟩
        · exact Or.inl (List.cons_prefix_cons.mpr ⟨hxc, h'⟩).isInfix
        · by_cases hm0 : m' = []
          · subst hm0 hxc
            rw [List.append_nil] at hm'
            subst hm'
            exact Or.inl (List.infix_refl _)
          · refine Or.inr (Or.inr ⟨x :: a', m', ?_, by simp, hm0, ?_, hm'p⟩)
            · rw [hm']; simp
            · subst hxc; exact List.suffix_refl _
    · rcases ih h with h' | h' | ⟨k₁, k₂, hk, h1, h2, hs, hpre⟩
      · exact Or.inl (List.infix_cons_iff.mpr (Or.inr h'))
      · exact Or.inr (Or.inl h')
      · exact Or.inr (Or.inr ⟨k₁, k₂, hk, h1, h2,
          hs.trans (List.suffix_cons c a'), hpre⟩)

/-- The (finitely checkable) ways a word `k` can overlap an inserted copy of
`new`: `k` inside `new`, `new` inside `k`, or a nonempty proper split of `k`
whose right part is a prefix of `new` or whose left part is a suffix of
`new`. -/
theorem bad_of_within {k new : List Char} (h : k <:+: new) : Bad k new := by
  unfold Bad badB
  simp [h]

theorem bad_of_rev {k new : List Char} (h : new <:+: k) : Bad k new := by
  unfold Bad badB
  simp [h]

theorem bad_of_split {k new k₁ k₂ : List Char} (hk : k = k₁ ++ k₂)
    (h1 : k₁ ≠ []) (h2 : k₂ ≠ []) (h3 : k₂ <+: new ∨ k₁ <:+ new) : Bad k new := by
  unfold Bad badB
  rw [Bool.or_eq_true, Bool.or_eq_true, List.any_eq_true]
  refine Or.inr ⟨k₁.length, List.mem_range.mpr ?_, ?_⟩
  · rw [hk, List.length_append]
    have : 0 < k₂.length := List.length_pos.mpr h2
    omega
  · have hd : k.drop k₁.length = k₂ := by rw [hk]; exact List.drop_left k₁ k₂
    have ht : k.take k₁.length = k₁ := by rw [hk]; exact List.take_left k₁ k₂
    have h0 : 0 < k₁.length := List.length_pos.mpr h1
    rw [Bool.and_eq_true, Bool.or_eq_true, hd, ht]
    rcases h3 with h3 | h3
    · exact ⟨by simpa using h0, Or.inl (by simpa using h3)⟩
    · exact ⟨by simpa using h0, Or.inr (by simpa using h3)⟩

theorem repl_nil (pat new : List Char) : repl pat new [] = [] := by
  rw [repl]

theorem repl_cons_pos {pat : List Char} (new : List Char) {c : Char} {r : List Char}
    (h1 : pat ≠ []) (h2 : pat <+: (c :: r)) :
    repl pat new (c :: r) = new ++ repl pat new ((c :: r).drop pat.length) := by
  rw [repl, dif_pos ⟨h1, h2⟩]

theorem repl_cons_neg {pat : List Char} (new : List Char) {c : Char} {r : List Char}
    (h : ¬(pat ≠ [] ∧ pat <+: (c :: r))) :
    repl pat new (c :: r) = c :: repl pat new r := by
  rw [repl, dif_neg h]

/-- Prefixes of `repl pat new z`: either a prefix of intact original text, or
original text followed by a nonempty piece that starts at an inserted copy of
`new`. -/
theorem repl_pref {pat new : List Char} (hn : new ≠ []) :
    ∀ z m : List Char, m <+: repl pat new z →
      m <+: z ∨ ∃ a b, m = a ++ b ∧ a <+: z ∧ b ≠ [] ∧ (b <+: new ∨ new <+: b) := by
  have main : ∀ n, ∀ z m : List Char, z.length ≤ n → m <+: repl pat new z →
      m <+: z ∨ ∃ a b, m = a ++ b ∧ a <+: z ∧ b ≠ [] ∧ (b <+: new ∨ new <+: b) := by
    intro n
    induction n with
    | zero =>
      intro z m hz hm
      have hz0 : z = [] := List.length_eq_zero.mp (Nat.le_zero.mp hz)
      subst hz0
      rw [repl_nil] at hm
      exact Or.inl hm
    | succ n ih =>
      intro z m hz hm
      match z with
      | [] =>
        rw [repl_nil] at hm
        exact Or.inl hm
      | c :: r =>
        by_cases hcase : pat ≠ [] ∧ pat <+: (c :: r)
        · rw [repl_cons_pos new hcase.1 hcase.2] at hm
          rcases prefix_append_split hm with hmn | ⟨m', hm', _⟩
          · by_cases hm0 : m = []
            · subst hm0; exact Or.inl (List.nil_prefix)
            · exact Or.inr ⟨[], m, by simp, List.nil_prefix, hm0, Or.inl hmn⟩
          · refine Or.inr ⟨[], m, by simp, List.nil_prefix, ?_, Or.inr ⟨m', hm'.symm ▸ rfl⟩⟩
            rw [hm']
            intro hcon
            exact hn (List.append_eq_nil.mp hcon).1
        · rw [repl_cons_neg new hcase] at hm
          match m with
          | [] => exact Or.inl List.nil_prefix
          | x :: m' =>
            obtain ⟨hxc, hm'⟩ := List.cons_prefix_cons.mp hm
            rcases ih r m' (by simp only [List.length_cons] at hz; omega) hm' with
              h' | ⟨a, b, he, ha, hb, hor⟩
            · exact Or.inl (List.cons_prefix_cons.mpr ⟨hxc, h'⟩)
            · refine Or.inr ⟨x :: a, b, by rw [he, List.cons_append], List.cons_prefix_cons.mpr ⟨hxc, ha⟩, hb, hor⟩
  intro z m
  exact main z.length z m (Nat.le_refl _)

/-- Any occurrence of `k` in `repl pat new l` is an occurrence of `k` in `l`,
unless `k` overlaps an inserted copy of `new` (`Bad k new`). -/
theorem repl_occ {pat new k : List Char} (hp : pat ≠ []) (hn : new ≠ []) :
    ∀ l : List Char, k <:+: repl pat new l → k <:+: l ∨ Bad k new := by
  have main : ∀ n, ∀ l : List Char, l.length ≤ n → k <:+: repl pat new l →
      k <:+: l ∨ Bad k new := by
    intro n
    induction n with
    | zero =>
      intro l hl hk
      have hl0 : l = [] := List.length_eq_zero.mp (Nat.le_zero.mp hl)
      subst hl0
      rw [repl_nil] at hk
      exact Or.inl hk
    | succ n ih =>
      intro l hl hk
      match l with
      | [] =>
        rw [repl_nil] at hk
        exact Or.inl hk
      | c :: r =>
        by_cases hcase : pat ≠ [] ∧ pat <+: (c :: r)
        · rw [repl_cons_pos new hcase.1 hcase.2] at hk
          rcases infix_append_split hk with h' | h' | ⟨k₁, k₂, he, h1, h2, hs, _⟩
          · exact Or.inr (bad_of_within h')
          · have hlen : ((c :: r).drop pat.length).length ≤ n := by
              rw [List.length_drop]
              have : 0 < pat.length := List.length_pos.mpr hp
              simp only [List.length_cons]
              simp only [List.length_cons] at hl
              omega
            rcases ih _ hlen h' with h'' | h''
            · exact Or.inl (h''.trans (List.drop_suffix _ _).isInfix)
            · exact Or.inr h''
          · exact Or.inr (bad_of_split he h1 h2 (Or.inr hs))
        · rw [repl_cons_neg new hcase] at hk
          rcases List.infix_cons_iff.mp hk with h' | h'
          · match k, h' with
            | [], _ => exact Or.inl List.nil_infix
            | x :: k', h' =>
              obtain ⟨hxc, hk'⟩ := List.cons_prefix_cons.mp h'
              rcases repl_pref hn r k' hk' with h'' | ⟨a, b, he, ha, hb, hor⟩
              · exact Or.inl (List.cons_prefix_cons.mpr ⟨hxc, h''⟩).isInfix
              · rcases hor with hor | hor
                · exact Or.inr (bad_of_split
                    (show x :: k' = (x :: a) ++ b by rw [he, List.cons_append]) (by simp) hb
                    (Or.inl hor))
                · rcases hor with ⟨t, ht⟩
                  refine Or.inr (bad_of_rev ?_)
                  refine ⟨[x] ++ a, t, ?_⟩
                  rw [he, ← ht]
                  simp
          · rcases ih r (by simp only [List.length_cons] at hl; omega) h' with h'' | h''
            · exact Or.inl (List.infix_cons_iff.mpr (Or.inr h''))
            · exact Or.inr h''
  intro l
  exact main l.length l (Nat.le_refl _)

/-- The output of `repl pat new l` never contains `pat` itself, unless `pat`
overlaps an inserted copy of `new`. -/
theorem repl_self_occ {pat new : List Char} (hp : pat ≠ []) (hn : new ≠ []) :
    ∀ l : List Char, pat <:+: repl pat new l → Bad pat new := by
  have main : ∀ n, ∀ l : List Char, l.length ≤ n → pat <:+: repl pat new l →
      Bad pat new := by
    intro n
    induction n with
    | zero =>
      intro l hl hk
      have hl0 : l = [] := List.length_eq_zero.mp (Nat.le_zero.mp hl)
      subst hl0
      rw [repl_nil] at hk
      rcases hk with ⟨s, t, hst⟩
      exact absurd (List.append_eq_nil.mp (List.append_eq_nil.mp hst).1).2 hp
    | succ n ih =>
      intro l hl hk
      match l with
      | [] =>
        rw [repl_nil] at hk
        rcases hk with ⟨s, t, hst⟩
        exact absurd (List.append_eq_nil.mp (List.append_eq_nil.mp hst).1).2 hp
      | c :: r =>
        by_cases hcase : pat ≠ [] ∧ pat <+: (c :: r)
        · rw [repl_cons_pos new hcase.1 hcase.2] at hk
          rcases infix_append_split hk with h' | h' | ⟨k₁, k₂, he, h1, h2, hs, _⟩
          · exact bad_of_within h'
          · have hlen : ((c :: r).drop pat.length).length ≤ n := by
              rw [List.length_drop]
              have : 0 < pat.length := List.length_pos.mpr hp
              simp only [List.length_cons]
              simp only [List.length_cons] at hl
              omega
            exact ih _ hlen h'
          · exact bad_of_split he h1 h2 (Or.inr hs)
        · rw [repl_cons_neg new hcase] at hk
          rcases List.infix_cons_iff.mp hk with h' | h'
          · match pat, hp, hcase, h' with
            | x :: p', hp, hcase, h' =>
              obtain ⟨hxc, hp'⟩ := List.cons_prefix_cons.mp h'
              rcases repl_pref hn r p' hp' with h'' | ⟨a, b, he, ha, hb, hor⟩
              · exact absurd ⟨hp, List.cons_prefix_cons.mpr ⟨hxc, h''⟩⟩ hcase
              · rcases hor with hor | hor
                · exact bad_of_split
                    (show x :: p' = (x :: a) ++ b by rw [he, List.cons_append]) (by simp) hb
                    (Or.inl hor)
                · rcases hor with ⟨t, ht⟩
                  refine bad_of_rev ⟨[x] ++ a, t, ?_⟩
                  rw [he, ← ht]
                  simp
          · exact ih r (by simp only [List.length_cons] at hl; omega) h'
  intro l
  exact main l.length l (Nat.le_refl _)

/-- `str.replace` with identical pattern and replacement is the identity. -/
theorem repl_self_id (p : List Char) : ∀ l, repl p p l = l := by
  have main : ∀ n, ∀ l : List Char, l.length ≤ n → repl p p l = l := by
    intro n
    induction n with
    | zero =>
      intro l hl
      have hl0 : l = [] := List.length_eq_zero.mp (Nat.le_zero.mp hl)
      subst hl0
      exact repl_nil p p
    | succ n ih =>
      intro l hl
      match l with
      | [] => exact repl_nil p p
      | c :: r =>
        by_cases hcase : p ≠ [] ∧ p <+: (c :: r)
        · rw [repl_cons_pos p hcase.1 hcase.2]
          obtain ⟨t, ht⟩ := hcase.2
          have hdrop : (c :: r).drop p.length = t := by rw [← ht]; exact List.drop_left p t
          rw [hdrop, ih t ?_, ht]
          have := congrArg List.length ht
          simp only [List.length_append, List.length_cons] at this
          have hp0 : 0 < p.length := List.length_pos.mpr hcase.1
          simp only [List.length_cons] at hl
          omega
        · rw [repl_cons_neg p hcase,
            ih r (by simp only [List.length_cons] at hl; omega)]
  intro l
  exact main l.length l (Nat.le_refl _)

/-- If `pat` does not occur in `l`, `str.replace` leaves `l` unchanged. -/
theorem repl_id_of_absent {pat : List Char} (new : List Char) :
    ∀ {l : List Char}, ¬ pat <:+: l → repl pat new l = l := by
  intro l
  induction l with
  | nil => intro _; exact repl_nil pat new
  | cons c r ih =>
    intro h
    have hnp : ¬ pat <+: (c :: r) := fun hc => h hc.isInfix
    rw [repl_cons_neg new (fun hc => hnp hc.2)]
    rw [ih (fun hc => h (List.infix_cons_iff.mpr (Or.inr hc)))]

/-! ### Transfer of occurrences through the whitespace passes

The whitespace passes (`sp`, `nl`, `stripWS`) only insert whitespace
characters and never delete all whitespace between two non-whitespace
characters, so an occurrence of a whitespace-free word in their output comes
from an occurrence in their input. -/

theorem dropWhile_head_false {p : Char → Bool} :
    ∀ {v : List Char} {d : Char} {r : List Char}, v.dropWhile p = d :: r → p d = false := by
  intro v
  induction v with
  | nil => intro d r h; cases h
  | cons c v' ih =>
    intro d r h
    rw [List.dropWhile_cons] at h
    by_cases hc : p c
    · exact ih (by simpa [hc] using h)
    · simp only [hc, if_false] at h
      cases h
      simpa using hc

theorem sp_nil : sp [] = [] := by rw [sp]

theorem sp_cons_pos {c : Char} (r : List Char) (h : isSpTab c) :
    sp (c :: r) = ' ' :: sp (r.dropWhile isSpTab) := by
  rw [sp, if_pos h]

theorem sp_cons_neg {c : Char} (r : List Char) (h : ¬ isSpTab c) :
    sp (c :: r) = c :: sp r := by
  rw [sp, if_neg h]

theorem nl_nil : nl [] = [] := by rw [nl]

theorem nl_cons_pos {c : Char} (r : List Char)
    (h : c = '\n' ∧ 2 ≤ (r.takeWhile isWS).count '\n') :
    nl (c :: r) = '\n' :: '\n' :: nl (afterNl (r.takeWhile isWS) ++ r.dropWhile isWS) := by
  rw [nl, dif_pos h]

theorem nl_cons_neg {c : Char} (r : List Char)
    (h : ¬ (c = '\n' ∧ 2 ≤ (r.takeWhile isWS).count '\n')) :
    nl (c :: r) = c :: nl r := by
  rw [nl, dif_neg h]

/-- The recursive argument of the `nl` match case is a suffix of the scanned
tail. -/
theorem nl_arg_suffix (r : List Char) :
    afterNl (r.takeWhile isWS) ++ r.dropWhile isWS <:+ r := by
  have h1 : afterNl (r.takeWhile isWS) <:+ r.takeWhile isWS := by
    unfold afterNl
    rw [← List.reverse_prefix, List.reverse_reverse]
    exact List.takeWhile_prefix _
  rcases h1 with ⟨u, hu⟩
  refine ⟨u, ?_⟩
  rw [← List.append_assoc, hu, List.takeWhile_append_dropWhile]

theorem sp_pref :
    ∀ (z m : List Char), (∀ c ∈ m, isSpTab c = false) → m <+: sp z → m <+: z := by
  intro z
  induction z with
  | nil => intro m _; rw [sp_nil]; exact fun h => h
  | cons c r ih =>
    intro m hm h
    by_cases hc : isSpTab c
    · rw [sp_cons_pos r hc] at h
      match m, hm, h with
      | [], _, _ => exact List.nil_prefix
      | x :: m', hm, h =>
        obtain ⟨hx, _⟩ := List.cons_prefix_cons.mp h
        have := hm x (by simp)
        rw [hx] at this
        simp [isSpTab] at this
    · rw [sp_cons_neg r hc] at h
      match m, hm, h with
      | [], _, _ => exact List.nil_prefix
      | x :: m', hm, h =>
        obtain ⟨hx, hm'⟩ := List.cons_prefix_cons.mp h
        exact List.cons_prefix_cons.mpr
          ⟨hx, ih m' (fun d hd => hm d (by simp [hd])) hm'⟩

theorem sp_infix_transfer {k : List Char} (hk : ∀ c ∈ k, isSpTab c = false) :
    ∀ z, k <:+: sp z → k <:+: z := by
  have main : ∀ n, ∀ z : List Char, z.length ≤ n → k <:+: sp z → k <:+: z := by
    intro n
    induction n with
    | zero =>
      intro z hz h
      have hz0 : z = [] := List.length_eq_zero.mp (Nat.le_zero.mp hz)
      subst hz0
      rwa [sp_nil] at h
    | succ n ih =>
      intro z hz h
      match z with
      | [] => rwa [sp_nil] at h
      | c :: r =>
        by_cases hc : isSpTab c
        · rw [sp_cons_pos r hc] at h
          rcases List.infix_cons_iff.mp h with h' | h'
          · match k, h' with
            | [], _ => exact List.nil_infix
            | x :: k', h' =>
              obtain ⟨hx, _⟩ := List.cons_prefix_cons.mp h'
              have := hk x (by simp)
              rw [hx] at this
              simp [isSpTab] at this
          · have hlen : (r.dropWhile isSpTab).length ≤ n := by
              have := (List.dropWhile_sublist (p := isSpTab) (l := r)).length_le
              simp only [List.length_cons] at hz
              omega
            have h'' := ih _ hlen h'
            exact List.infix_cons_iff.mpr
              (Or.inr (h''.trans (List.dropWhile_suffix isSpTab).isInfix))
        · rw [sp_cons_neg r hc] at h
          rcases List.infix_cons_iff.mp h with h' | h'
          · have : k <+: sp (c :: r) := by rwa [sp_cons_neg r hc]
            exact (sp_pref _ _ hk this).isInfix
          · have hlen : r.length ≤ n := by
              simp only [List.length_cons] at hz
              omega
            exact List.infix_cons_iff.mpr (Or.inr (ih _ hlen h'))
  intro z
  exact main z.length z (Nat.le_refl _)

theorem nl_pref :
    ∀ (z m : List Char), (∀ c ∈ m, isWS c = false) → m <+: nl z → m <+: z := by
  intro z
  induction z with
  | nil => intro m _; rw [nl_nil]; exact fun h => h
  | cons c r ih =>
    intro m hm h
    by_cases hc : c = '\n' ∧ 2 ≤ (r.takeWhile isWS).count '\n'
    · rw [nl_cons_pos r hc] at h
      match m, hm, h with
      | [], _, _ => exact List.nil_prefix
      | x :: m', hm, h =>
        obtain ⟨hx, _⟩ := List.cons_prefix_cons.mp h
        have := hm x (by simp)
        rw [hx] at this
        simp [isWS] at this
    · rw [nl_cons_neg r hc] at h
      match m, hm, h with
      | [], _, _ => exact List.nil_prefix
      | x :: m', hm, h =>
        obtain ⟨hx, hm'⟩ := List.cons_prefix_cons.mp h
        exact List.cons_prefix_cons.mpr
          ⟨hx, ih m' (fun d hd => hm d (by simp [hd])) hm'⟩

theorem nl_infix_transfer {k : List Char} (hk : ∀ c ∈ k, isWS c = false) :
    ∀ z, k <:+: nl z → k <:+: z := by
  have main : ∀ n, ∀ z : List Char, z.length ≤ n → k <:+: nl z → k <:+: z := by
    intro n
    induction n with
    | zero =>
      intro z hz h
      have hz0 : z = [] := List.length_eq_zero.mp (Nat.le_zero.mp hz)
      subst hz0
      rwa [nl_nil] at h
    | succ n ih =>
      intro z hz h
      match z with
      | [] => rwa [nl_nil] at h
      | c :: r =>
        by_cases hc : c = '\n' ∧ 2 ≤ (r.takeWhile isWS).count '\n'
        · rw [nl_cons_pos r hc] at h
          have hnlk : ∀ {v : List Char}, k <+: '\n' :: v → k <:+: c :: r := by
            intro v hv
            match k, hv with
            | [], _ => exact List.nil_infix
            | x :: k', hv =>
              obtain ⟨hx, _⟩ := List.cons_prefix_cons.mp hv
              have := hk x (by simp)
              rw [hx] at this
              simp [isWS] at this
          rcases List.infix_cons_iff.mp h with h' | h'
          · exact hnlk h'
          · rcases List.infix_cons_iff.mp h' with h'' | h''
            · exact hnlk h''
            · have harg := nl_arg_suffix r
              have hlen : (afterNl (r.takeWhile isWS) ++ r.dropWhile isWS).length ≤ n := by
                have := harg.sublist.length_le
                simp only [List.length_cons] at hz
                omega
              have h3 := ih _ hlen h''
              exact List.infix_cons_iff.mpr (Or.inr (h3.trans harg.isInfix))
        · rw [nl_cons_neg r hc] at h
          rcases List.infix_cons_iff.mp h with h' | h'
          · have : k <+: nl (c :: r) := by rwa [nl_cons_neg r hc]
            exact (nl_pref _ _ hk this).isInfix
          · have hlen : r.length ≤ n := by
              simp only [List.length_cons] at hz
              omega
            exact List.infix_cons_iff.mpr (Or.inr (ih _ hlen h'))
  intro z
  exact main z.length z (Nat.le_refl _)

theorem stripWS_within (l : List Char) : stripWS l <:+: l := by
  unfold stripWS
  have h1 : (l.dropWhile isWS).reverse.dropWhile isWS <:+ (l.dropWhile isWS).reverse :=
    List.dropWhile_suffix isWS
  have h2 : ((l.dropWhile isWS).reverse.dropWhile isWS).reverse <+: l.dropWhile isWS := by
    refine List.reverse_suffix.mp ?_
    rw [List.reverse_reverse]
    exact h1
  exact h2.isInfix.trans (List.dropWhile_suffix isWS).isInfix

theorem strip_infix_transfer {k z : List Char} (h : k <:+: stripWS z) : k <:+: z :=
  h.trans (stripWS_within z)

/-! ### Fixpoint properties of the whitespace passes -/

theorem dropWhile_eq_self_of_head {p : Char → Bool} {z : List Char}
    (h : ∀ d, z.head? = some d → p d = false) : z.dropWhile p = z := by
  match z with
  | [] => rfl
  | c :: r =>
    rw [List.dropWhile_cons, if_neg]
    simp [h c rfl]

theorem strip_eq_self_of {z : List Char}
    (h1 : ∀ d, z.head? = some d → isWS d = false)
    (h2 : ∀ d, z.getLast? = some d → isWS d = false) : stripWS z = z := by
  unfold stripWS
  rw [dropWhile_eq_self_of_head h1]
  rw [dropWhile_eq_self_of_head (by simpa using h2)]
  exact List.reverse_reverse z

theorem head_dropWhile_false {p : Char → Bool} (z : List Char) :
    ∀ d, (z.dropWhile p).head? = some d → p d = false := by
  intro d hd
  match hz : z.dropWhile p, hd with
  | c :: r, hd =>
    cases hd
    exact dropWhile_head_false hz

theorem strip_head (z : List Char) :
    ∀ d, (stripWS z).head? = some d → isWS d = false := by
  intro d hd
  unfold stripWS at hd
  rw [List.head?_reverse] at hd
  -- `d` is the last element of `dropWhile isWS ((dropWhile isWS z).reverse)`,
  -- which is a nonempty suffix of `(dropWhile isWS z).reverse`, whose last
  -- element is the head of `dropWhile isWS z`: not whitespace.
  rcases List.dropWhile_suffix (l := (z.dropWhile isWS).reverse) isWS with ⟨u, hu⟩
  have hne : (z.dropWhile isWS).reverse.dropWhile isWS ≠ [] := by
    intro hcon
    rw [hcon] at hd
    cases hd
  have : (u ++ (z.dropWhile isWS).reverse.dropWhile isWS).getLast? = some d := by
    rw [List.getLast?_append_of_ne_nil u hne]
    exact hd
  rw [hu, List.getLast?_reverse] at this
  exact head_dropWhile_false z d this

theorem strip_last (z : List Char) :
    ∀ d, (stripWS z).getLast? = some d → isWS d = false := by
  intro d hd
  unfold stripWS at hd
  rw [List.getLast?_reverse] at hd
  exact head_dropWhile_false _ d hd

theorem strip_idem (z : List Char) : stripWS (stripWS z) = stripWS z :=
  strip_eq_self_of (strip_head z) (strip_last z)

/-- `sp` is the identity on strings with no tab and no two adjacent spaces. -/
theorem sp_id_of_ok :
    ∀ z : List Char, '\t' ∉ z → ¬ ([' ', ' '] <:+: z) → sp z = z := by
  intro z
  induction z with
  | nil => intro _ _; exact sp_nil
  | cons c r ih =>
    intro ht hd
    have htr : '\t' ∉ r := fun hc => ht (by simp [hc])
    have hdr : ¬ ([' ', ' '] <:+: r) := fun hc => hd (List.infix_cons_iff.mpr (Or.inr hc))
    by_cases hc : isSpTab c
    · have hcsp : c = ' ' := by
        rcases Bool.or_eq_true _ _ |>.mp hc with h | h
        · exact beq_iff_eq.mp h
        · exact absurd (by simp [beq_iff_eq.mp h]) ht
      have hdrop : r.dropWhile isSpTab = r := by
        apply dropWhile_eq_self_of_head
        intro d hdd
        match r, hdd with
        | e :: r', hdd =>
          cases hdd
          by_cases he : isSpTab d
          · exfalso
            rcases Bool.or_eq_true _ _ |>.mp he with h | h
            · apply hd
              refine ⟨[], r', ?_⟩
              simp [hcsp, beq_iff_eq.mp h]
            · exact ht (by simp [beq_iff_eq.mp h])
          · simpa using he
      rw [sp_cons_pos r hc, hdrop, ih htr hdr, hcsp]
    · rw [sp_cons_neg r hc, ih htr hdr]

/-- `hasTriple z` holds when the pattern `\n\s*\n\s*\n` matches somewhere in
`z`: some position carries `'\n'` and is followed by a whitespace run holding
two more `'\n'`. -/
theorem nl_id_of_ok : ∀ z : List Char, hasTriple z = false → nl z = z := by
  intro z
  induction z with
  | nil => intro _; exact nl_nil
  | cons c r ih =>
    intro h
    unfold hasTriple at h
    rw [Bool.or_eq_false_iff] at h
    have hcond : ¬ (c = '\n' ∧ 2 ≤ (r.takeWhile isWS).count '\n') := by
      intro ⟨h1, h2⟩
      have := h.1
      rw [h1] at this
      simp [h2] at this
    rw [nl_cons_neg r hcond, ih h.2]

theorem hasTriple_cons_of {v : List Char} (c : Char) (h : hasTriple v = true) :
    hasTriple (c :: v) = true := by
  unfold hasTriple
  simp [h]

theorem takeWhile_prefix_append (p : Char → Bool) (a b : List Char) :
    a.takeWhile p <+: (a ++ b).takeWhile p := by
  induction a with
  | nil => simp
  | cons c a' ih =>
    rw [List.cons_append, List.takeWhile_cons, List.takeWhile_cons]
    by_cases hc : p c
    · simp only [hc, if_true]
      exact List.cons_prefix_cons.mpr ⟨rfl, ih⟩
    · simp [hc]

theorem hasTriple_append_right {m : List Char} (b : List Char)
    (h : hasTriple m = true) : hasTriple (m ++ b) = true := by
  induction m with
  | nil => cases h
  | cons c r ih =>
    unfold hasTriple at h
    rw [Bool.or_eq_true] at h
    rcases h with h | h
    · rw [Bool.and_eq_true] at h
      have hcount : 2 ≤ ((r ++ b).takeWhile isWS).count '\n' := by
        have hmono := ((takeWhile_prefix_append isWS r b).sublist).count_le '\n'
        have := of_decide_eq_true h.2
        omega
      rw [List.cons_append]
      unfold hasTriple
      rw [h.1]
      simp [hcount]
    · rw [List.cons_append]
      exact hasTriple_cons_of c (ih h)

/-- A match of `\n\s*\n\s*\n` in an infix is a match in the whole string. -/
theorem hasTriple_mono {m z : List Char} (hmz : m <:+: z) (h : hasTriple m = true) :
    hasTriple z = true := by
  rcases hmz with ⟨s, t, hst⟩
  subst hst
  induction s with
  | nil => simpa using hasTriple_append_right t h
  | cons c s' ih => exact hasTriple_cons_of c ih

/-! ### The whitespace passes establish their own fixpoint invariants -/

theorem sp_no_tab : ∀ z : List Char, '\t' ∉ sp z := by
  have main : ∀ n, ∀ z : List Char, z.length ≤ n → '\t' ∉ sp z := by
    intro n
    induction n with
    | zero =>
      intro z hz
      have hz0 : z = [] := List.length_eq_zero.mp (Nat.le_zero.mp hz)
      subst hz0
      rw [sp_nil]
      simp
    | succ n ih =>
      intro z hz
      match z with
      | [] => rw [sp_nil]; simp
      | c :: r =>
        by_cases hc : isSpTab c
        · rw [sp_cons_pos r hc]
          intro hmem
          rcases List.mem_cons.mp hmem with h | h
          · cases h
          · refine ih (r.dropWhile isSpTab) ?_ h
            have := (List.dropWhile_sublist (p := isSpTab) (l := r)).length_le
            simp only [List.length_cons] at hz
            omega
        · rw [sp_cons_neg r hc]
          intro hmem
          rcases List.mem_cons.mp hmem with h | h
          · subst h
            simp [isSpTab] at hc
          · refine ih r ?_ h
            simp only [List.length_cons] at hz
            omega
  intro z
  exact main z.length z (Nat.le_refl _)

theorem sp_no_dbl : ∀ z : List Char, ¬ ([' ', ' '] <:+: sp z) := by
  have main : ∀ n, ∀ z : List Char, z.length ≤ n → ¬ ([' ', ' '] <:+: sp z) := by
    intro n
    induction n with
    | zero =>
      intro z hz
      have hz0 : z = [] := List.length_eq_zero.mp (Nat.le_zero.mp hz)
      subst hz0
      rw [sp_nil]
      intro h
      have := h.sublist.length_le
      simp at this
    | succ n ih =>
      intro z hz
      match z with
      | [] =>
        rw [sp_nil]
        intro h
        have := h.sublist.length_le
        simp at this
      | c :: r =>
        by_cases hc : isSpTab c
        · rw [sp_cons_pos r hc]
          intro h
          have hlen : (r.dropWhile isSpTab).length ≤ n := by
            have := (List.dropWhile_sublist (p := isSpTab) (l := r)).length_le
            simp only [List.length_cons] at hz
            omega
          rcases List.infix_cons_iff.mp h with h' | h'
          · -- a prefix `' ' :: ' ' :: _` would force the head of
            -- `sp (dropWhile isSpTab r)` to be a space, but that head is a
            -- non-space-tab original character.
            obtain ⟨-, h2⟩ := List.cons_prefix_cons.mp h'
            match hr : r.dropWhile isSpTab, h2 with
            | [], h2 =>
              rw [sp_nil] at h2
              have := h2.sublist.length_le
              simp at this
            | d :: r', h2 =>
              have hd : isSpTab d = false := dropWhile_head_false hr
              rw [sp_cons_neg r' (by simp [hd])] at h2
              obtain ⟨hd', -⟩ := List.cons_prefix_cons.mp h2
              rw [← hd'] at hd
              simp [isSpTab] at hd
          · exact ih _ hlen h'
        · rw [sp_cons_neg r hc]
          intro h
          have hlen : r.length ≤ n := by
            simp only [List.length_cons] at hz
            omega
          rcases List.infix_cons_iff.mp h with h' | h'
          · obtain ⟨hd', -⟩ := List.cons_prefix_cons.mp h'
            rw [← hd'] at hc
            simp [isSpTab] at hc
          · exact ih _ hlen h'
  intro z
  exact main z.length z (Nat.le_refl _)

theorem nl_head : ∀ z : List Char, (nl z).head? = z.head? := by
  intro z
  match z with
  | [] => rw [nl_nil]
  | c :: r =>
    by_cases hc : c = '\n' ∧ 2 ≤ (r.takeWhile isWS).count '\n'
    · rw [nl_cons_pos r hc, hc.1]
      rfl
    · rw [nl_cons_neg r hc]
      rfl

theorem mem_suffix {c : Char} {s l : List Char} (hs : s <:+ l) (h : c ∈ s) : c ∈ l :=
  hs.sublist.subset h

theorem nl_preserve_no_tab : ∀ z : List Char, '\t' ∉ z → '\t' ∉ nl z := by
  have main : ∀ n, ∀ z : List Char, z.length ≤ n → '\t' ∉ z → '\t' ∉ nl z := by
    intro n
    induction n with
    | zero =>
      intro z hz _
      have hz0 : z = [] := List.length_eq_zero.mp (Nat.le_zero.mp hz)
      subst hz0
      rw [nl_nil]
      simp
    | succ n ih =>
      intro z hz ht
      match z with
      | [] => rw [nl_nil]; simp
      | c :: r =>
        by_cases hc : c = '\n' ∧ 2 ≤ (r.takeWhile isWS).count '\n'
        · rw [nl_cons_pos r hc]
          intro hmem
          have harg := nl_arg_suffix r
          have hlen : (afterNl (r.takeWhile isWS) ++ r.dropWhile isWS).length ≤ n := by
            have := harg.sublist.length_le
            simp only [List.length_cons] at hz
            omega
          have htarg : '\t' ∉ afterNl (r.takeWhile isWS) ++ r.dropWhile isWS := by
            intro hmem'
            exact ht (by simp [mem_suffix harg hmem'])
          rcases List.mem_cons.mp hmem with h | h
          · cases h
          rcases List.mem_cons.mp h with h' | h'
          · cases h'
          exact ih _ hlen htarg h'
        · rw [nl_cons_neg r hc]
          intro hmem
          rcases List.mem_cons.mp hmem with h | h
          · exact ht (List.mem_cons.mpr (Or.inl h))
          · refine ih r ?_ (fun hc' => ht (List.mem_cons.mpr (Or.inr hc'))) h
            simp only [List.length_cons] at hz
            omega
  intro z
  exact main z.length z (Nat.le_refl _)

theorem nl_preserve_no_dbl :
    ∀ z : List Char, ¬ ([' ', ' '] <:+: z) → ¬ ([' ', ' '] <:+: nl z) := by
  have main : ∀ n, ∀ z : List Char, z.length ≤ n →
      ¬ ([' ', ' '] <:+: z) → ¬ ([' ', ' '] <:+: nl z) := by
    intro n
    induction n with
    | zero =>
      intro z hz _
      have hz0 : z = [] := List.length_eq_zero.mp (Nat.le_zero.mp hz)
      subst hz0
      rw [nl_nil]
      intro h
      have := h.sublist.length_le
      simp at this
    | succ n ih =>
      intro z hz hdbl
      match z with
      | [] =>
        rw [nl_nil]
        intro h
        have := h.sublist.length_le
        simp at this
      | c :: r =>
        by_cases hc : c = '\n' ∧ 2 ≤ (r.takeWhile isWS).count '\n'
        · rw [nl_cons_pos r hc]
          intro h
          have harg := nl_arg_suffix r
          have hlen : (afterNl (r.takeWhile isWS) ++ r.dropWhile isWS).length ≤ n := by
            have := harg.sublist.length_le
            simp only [List.length_cons] at hz
            omega
          have hdarg : ¬ ([' ', ' '] <:+: afterNl (r.takeWhile isWS) ++ r.dropWhile isWS) := by
            intro h'
            rcases harg with ⟨u, hu⟩
            exact hdbl (List.infix_cons_iff.mpr (Or.inr (h'.trans ⟨u, [], by simp [hu]⟩)))
          rcases List.infix_cons_iff.mp h with h' | h'
          · obtain ⟨he, -⟩ := List.cons_prefix_cons.mp h'
            cases he
          rcases List.infix_cons_iff.mp h' with h'' | h''
          · obtain ⟨he, -⟩ := List.cons_prefix_cons.mp h''
            cases he
          exact ih _ hlen hdarg h''
        · rw [nl_cons_neg r hc]
          intro h
          have hdr : ¬ ([' ', ' '] <:+: r) := fun h' =>
            hdbl (List.infix_cons_iff.mpr (Or.inr h'))
          rcases List.infix_cons_iff.mp h with h' | h'
          · obtain ⟨he, h2⟩ := List.cons_prefix_cons.mp h'
            -- second space is the head of `nl r`, hence the head of `r`
            match hr : nl r, h2 with
            | d :: v, h2 =>
              obtain ⟨hd', -⟩ := List.cons_prefix_cons.mp h2
              have : r.head? = some ' ' := by
                rw [← nl_head r, hr, ← hd']
                rfl
              match r, this with
              | e :: r', this =>
                apply hdbl
                refine ⟨[], r', ?_⟩
                cases this
                simp [← he]
          · exact ih r (by simp only [List.length_cons] at hz; omega) hdr h'
  intro z
  exact main z.length z (Nat.le_refl _)

theorem afterNl_suffix (w : List Char) : afterNl w <:+ w := by
  unfold afterNl
  rw [← List.reverse_prefix, List.reverse_reverse]
  exact List.takeWhile_prefix _

theorem afterNl_no_nl (w : List Char) : '\n' ∉ afterNl w := by
  unfold afterNl
  intro h
  have h' := List.mem_reverse.mp h
  have := List.mem_takeWhile_imp h'
  simp at this

theorem takeWhile_append_all {p : Char → Bool} {a : List Char} (b : List Char)
    (ha : ∀ c ∈ a, p c = true) : (a ++ b).takeWhile p = a ++ b.takeWhile p := by
  induction a with
  | nil => simp
  | cons c a' ih =>
    rw [List.cons_append, List.takeWhile_cons, ha c (by simp)]
    simp only [if_true]
    rw [ih (fun d hd => ha d (by simp [hd]))]
    rfl

theorem takeWhile_nil_of_head {p : Char → Bool} {b : List Char}
    (hb : ∀ d, b.head? = some d → p d = false) : b.takeWhile p = [] := by
  match b with
  | [] => rfl
  | c :: r =>
    rw [List.takeWhile_cons, hb c rfl]
    rfl

/-- `nl` copies a leading whitespace run holding at most one `'\n'` verbatim
(no match can start inside it). -/
theorem nl_copy : ∀ ws t₂ : List Char, (∀ c ∈ ws, isWS c = true) →
    ws.count '\n' ≤ 1 → (∀ d, t₂.head? = some d → isWS d = false) →
    nl (ws ++ t₂) = ws ++ nl t₂ := by
  intro ws
  induction ws with
  | nil => intro t₂ _ _ _; simp
  | cons c ws' ih =>
    intro t₂ hws hcount hhd
    rw [List.cons_append]
    have htw : ((ws' ++ t₂).takeWhile isWS) = ws' := by
      rw [takeWhile_append_all t₂ (fun d hd => hws d (by simp [hd])),
        takeWhile_nil_of_head hhd, List.append_nil]
    have hcond : ¬ (c = '\n' ∧ 2 ≤ ((ws' ++ t₂).takeWhile isWS).count '\n') := by
      rw [htw]
      rintro ⟨hc, h2⟩
      rw [List.count_cons, hc] at hcount
      simp at hcount
      omega
    have hcnt' : ws'.count '\n' ≤ 1 := by
      rw [List.count_cons] at hcount
      split at hcount <;> omega
    rw [nl_cons_neg _ hcond, ih t₂ (fun d hd => hws d (by simp [hd])) hcnt' hhd]
    rfl

/-- Prepending newline-free text cannot create a `\n\s*\n\s*\n` match. -/
theorem hasTriple_ws_append {ws v : List Char} (hws : '\n' ∉ ws)
    (hv : hasTriple v = false) : hasTriple (ws ++ v) = false := by
  induction ws with
  | nil => simpa using hv
  | cons d ws' ih =>
    rw [List.cons_append]
    unfold hasTriple
    rw [Bool.or_eq_false_iff]
    constructor
    · have hd : ¬ d = '\n' := fun hc => hws (by simp [hc])
      simp [hd]
    · exact ih (fun hc => hws (by simp [hc]))

/-- The output of `nl` contains no match of `\n\s*\n\s*\n`. -/
theorem nl_no_triple : ∀ z : List Char, hasTriple (nl z) = false := by
  have key : ∀ v : List Char, (∀ d, v.head? = some d → isWS d = false) →
      (nl v).takeWhile isWS = [] := by
    intro v hv
    refine takeWhile_nil_of_head ?_
    intro d hd
    rw [nl_head] at hd
    exact hv d hd
  have main : ∀ n, ∀ z : List Char, z.length ≤ n → hasTriple (nl z) = false := by
    intro n
    induction n with
    | zero =>
      intro z hz
      have hz0 : z = [] := List.length_eq_zero.mp (Nat.le_zero.mp hz)
      subst hz0
      rw [nl_nil]
      rfl
    | succ n ih =>
      intro z hz
      match z with
      | [] => rw [nl_nil]; rfl
      | c :: r =>
        have hdw : ∀ d, (r.dropWhile isWS).head? = some d → isWS d = false :=
          head_dropWhile_false r
        have hlen : (r.dropWhile isWS).length ≤ n := by
          have := (List.dropWhile_sublist (p := isWS) (l := r)).length_le
          simp only [List.length_cons] at hz
          omega
        by_cases hc : c = '\n' ∧ 2 ≤ (r.takeWhile isWS).count '\n'
        · rw [nl_cons_pos r hc]
          set w := r.takeWhile isWS with hw
          have hallws : ∀ d ∈ afterNl w, isWS d = true := fun d hd =>
            List.mem_takeWhile_imp (mem_suffix (afterNl_suffix w) hd)
          have hcnt : (afterNl w).count '\n' = 0 :=
            List.count_eq_zero.mpr (afterNl_no_nl w)
          have hcopy : nl (afterNl w ++ r.dropWhile isWS)
              = afterNl w ++ nl (r.dropWhile isWS) :=
            nl_copy _ _ hallws (by omega) hdw
          rw [hcopy]
          have htw2 : (afterNl w ++ nl (r.dropWhile isWS)).takeWhile isWS = afterNl w := by
            rw [takeWhile_append_all _ hallws, key _ hdw, List.append_nil]
          have htw1 : (('\n' : Char) :: (afterNl w ++ nl (r.dropWhile isWS))).takeWhile isWS
              = '\n' :: afterNl w := by
            rw [List.takeWhile_cons, htw2]
            rfl
          have h1 : hasTriple (afterNl w ++ nl (r.dropWhile isWS)) = false :=
            hasTriple_ws_append (afterNl_no_nl w) (ih (r.dropWhile isWS) hlen)
          have hc1 : (('\n' : Char) :: afterNl w).count '\n' = 1 := by
            rw [List.count_cons, hcnt]
            simp
          simp only [hasTriple]
          rw [htw1, htw2, hc1, hcnt]
          simp [h1]
        · rw [nl_cons_neg r hc]
          simp only [hasTriple]
          rw [Bool.or_eq_false_iff]
          refine ⟨?_, ih r (by simp only [List.length_cons] at hz; omega)⟩
          by_cases hcn : c = '\n'
          · subst hcn
            have hcnt : (r.takeWhile isWS).count '\n' ≤ 1 := by
              by_contra hcon
              push_neg at hcon
              exact hc ⟨rfl, by omega⟩
            have hws : ∀ d ∈ r.takeWhile isWS, isWS d = true := fun d hd =>
              List.mem_takeWhile_imp hd
            have hcopy2 : nl r = r.takeWhile isWS ++ nl (r.dropWhile isWS) := by
              conv_lhs => rw [← List.takeWhile_append_dropWhile isWS r]
              exact nl_copy _ _ hws hcnt hdw
            have htwr : (nl r).takeWhile isWS = r.takeWhile isWS := by
              rw [hcopy2, takeWhile_append_all _ hws, key _ hdw, List.append_nil]
            rw [htwr]
            have hlt : ¬ 2 ≤ (r.takeWhile isWS).count '\n' := by omega
            simp [hlt]
          · simp [hcn]
  intro z
  exact main z.length z (Nat.le_refl _)

/-! ### The substitution table creates no new occurrences of its own keys -/

theorem keep_free {k pat new l : List Char} (hp : pat ≠ []) (hn : new ≠ [])
    (hbad : ¬ Bad k new) (h : ¬ k <:+: l) : ¬ k <:+: repl pat new l :=
  fun hc => (repl_occ hp hn l hc).elim h hbad

theorem self_free {pat new : List Char} (hp : pat ≠ []) (hn : new ≠ [])
    (hbad : ¬ Bad pat new) (l : List Char) : ¬ pat <:+: repl pat new l :=
  fun hc => hbad (repl_self_occ hp hn l hc)

theorem applyRepl_eq (l : List Char) : applyRepl l =
    repl ("Srey".data) ("Store".data)
      (repl ("Cewkehy".data) ("Company".data)
        (repl ("Amt:".data) ("Amount:".data)
          (repl ("Qty:".data) ("Quantity:".data)
            (repl ("Phn:".data) ("Phone:".data)
              (repl ("+|bCAmt:+/2¢".data) ("SubTotal:".data)
                (repl ("Chola".data) ("Chola".data)
                  (repl ("Lable".data) ("Label".data) l))))))) := rfl

theorem keyfree_lable (l : List Char) : ¬ "Lable".data <:+: applyRepl l := by
  rw [applyRepl_eq]
  refine keep_free (by decide) (by decide) (by decide) ?_
  refine keep_free (by decide) (by decide) (by decide) ?_
  refine keep_free (by decide) (by decide) (by decide) ?_
  refine keep_free (by decide) (by decide) (by decide) ?_
  refine keep_free (by decide) (by decide) (by decide) ?_
  refine keep_free (by decide) (by decide) (by decide) ?_
  refine keep_free (by decide) (by decide) (by decide) ?_
  exact self_free (by decide) (by decide) (by decide) l

theorem keyfree_subtotal (l : List Char) : ¬ "+|bCAmt:+/2¢".data <:+: applyRepl l := by
  rw [applyRepl_eq]
  refine keep_free (by decide) (by decide) (by decide) ?_
  refine keep_free (by decide) (by decide) (by decide) ?_
  refine keep_free (by decide) (by decide) (by decide) ?_
  refine keep_free (by decide) (by decide) (by decide) ?_
  refine keep_free (by decide) (by decide) (by decide) ?_
  exact self_free (by decide) (by decide) (by decide) _

theorem keyfree_phn (l : List Char) : ¬ "Phn:".data <:+: applyRepl l := by
  rw [applyRepl_eq]
  refine keep_free (by decide) (by decide) (by decide) ?_
  refine keep_free (by decide) (by decide) (by decide) ?_
  refine keep_free (by decide) (by decide) (by decide) ?_
  refine keep_free (by decide) (by decide) (by decide) ?_
  exact self_free (by decide) (by decide) (by decide) _

theorem keyfree_qty (l : List Char) : ¬ "Qty:".data <:+: applyRepl l := by
  rw [applyRepl_eq]
  refine keep_free (by decide) (by decide) (by decide) ?_
  refine keep_free (by decide) (by decide) (by decide) ?_
  refine keep_free (by decide) (by decide) (by decide) ?_
  exact self_free (by decide) (by decide) (by decide) _

theorem keyfree_amt (l : List Char) : ¬ "Amt:".data <:+: applyRepl l := by
  rw [applyRepl_eq]
  refine keep_free (by decide) (by decide) (by decide) ?_
  refine keep_free (by decide) (by decide) (by decide) ?_
  exact self_free (by decide) (by decide) (by decide) _

theorem keyfree_cewkehy (l : List Char) : ¬ "Cewkehy".data <:+: applyRepl l := by
  rw [applyRepl_eq]
  refine keep_free (by decide) (by decide) (by decide) ?_
  exact self_free (by decide) (by decide) (by decide) _

theorem keyfree_srey (l : List Char) : ¬ "Srey".data <:+: applyRepl l := by
  rw [applyRepl_eq]
  exact self_free (by decide) (by decide) (by decide) _

theorem applyRepl_id_of_keyfree {y : List Char}
    (h1 : ¬ "Lable".data <:+: y) (h3 : ¬ "+|bCAmt:+/2¢".data <:+: y)
    (h4 : ¬ "Phn:".data <:+: y) (h5 : ¬ "Qty:".data <:+: y)
    (h6 : ¬ "Amt:".data <:+: y) (h7 : ¬ "Cewkehy".data <:+: y)
    (h8 : ¬ "Srey".data <:+: y) : applyRepl y = y := by
  rw [applyRepl_eq, repl_id_of_absent _ h1, repl_self_id,
    repl_id_of_absent _ h3, repl_id_of_absent _ h4, repl_id_of_absent _ h5,
    repl_id_of_absent _ h6, repl_id_of_absent _ h7, repl_id_of_absent _ h8]

/-- Transfer key-freedom from the substitution output through the whitespace
passes (the keys contain no whitespace characters). -/
theorem keyfree_clean_out (x : List Char) (k : List Char)
    (hws : ∀ c ∈ k, isWS c = false) (hst : ∀ c ∈ k, isSpTab c = false)
    (hin : ¬ k <:+: applyRepl x) :
    ¬ k <:+: stripWS (nl (sp (applyRepl x))) := by
  intro hc
  exact hin (sp_infix_transfer hst _ (nl_infix_transfer hws _ (strip_infix_transfer hc)))

/-- One full pass of `clean_ocr_text` reaches a fixpoint of all its stages. -/
theorem clean_fixed (x : List Char) :
    clean_ocr_text (stripWS (nl (sp (applyRepl x)))) = stripWS (nl (sp (applyRepl x))) := by
  set y := stripWS (nl (sp (applyRepl x))) with hy
  by_cases hynil : y = []
  · rw [clean_ocr_text, if_pos hynil]
  · rw [clean_ocr_text, if_neg hynil]
    have hrep : applyRepl y = y := by
      refine applyRepl_id_of_keyfree ?_ ?_ ?_ ?_ ?_ ?_ ?_ <;>
        exact keyfree_clean_out x _ (by decide) (by decide) (by
          first
          | exact keyfree_lable x
          | exact keyfree_subtotal x
          | exact keyfree_phn x
          | exact keyfree_qty x
          | exact keyfree_amt x
          | exact keyfree_cewkehy x
          | exact keyfree_srey x)
    have htab : '\t' ∉ y := by
      intro hc
      exact nl_preserve_no_tab (sp (applyRepl x)) (sp_no_tab (applyRepl x))
        ((stripWS_within _).sublist.subset hc)
    have hdbl : ¬ ([' ', ' '] <:+: y) := by
      intro hc
      exact nl_preserve_no_dbl (sp (applyRepl x)) (sp_no_dbl (applyRepl x))
        (strip_infix_transfer hc)
    have hsp : sp y = y := sp_id_of_ok y htab hdbl
    have htriple : hasTriple y = false := by
      cases h : hasTriple y with
      | false => rfl
      | true =>
        have := hasTriple_mono (stripWS_within (nl (sp (applyRepl x)))) h
        rw [nl_no_triple] at this
        cases this
    have hnl : nl y = y := nl_id_of_ok y htriple
    have hstrip : stripWS y = y := by
      rw [hy]
      exact strip_idem _
    show stripWS (nl (sp (applyRepl y))) = y
    rw [hrep, hsp, hnl, hstrip]

/-- Claim C2: the text normalizer `clean_ocr_text` is idempotent: for every
input string `t`, `clean_ocr_text (clean_ocr_text t)` equals
`clean_ocr_text t`. -/
theorem C2_clean_ocr_text_idempotent (t : List Char) :
    clean_ocr_text (clean_ocr_text t) = clean_ocr_text t := by
  by_cases ht : t = []
  · subst ht
    rfl
  · have h : clean_ocr_text t = stripWS (nl (sp (applyRepl t))) := by
      rw [clean_ocr_text, if_neg ht]
      rfl
    rw [h]
    exact clean_fixed t

/-- Claim C10: for every non-empty input string, the output of
`clean_ocr_text` contains no tab character, no two adjacent spaces, and no
three adjacent newlines, and has no leading or trailing whitespace; and for a
falsy input (empty string, or `None` through the `Option` wrapper),
`clean_ocr_text` returns the input unchanged. -/
theorem C10_clean_output_invariants :
    (∀ t : List Char, t ≠ [] →
      '\t' ∉ clean_ocr_text t ∧
      ¬ ([' ', ' '] <:+: clean_ocr_text t) ∧
      ¬ (['\n', '\n', '\n'] <:+: clean_ocr_text t) ∧
      (∀ d, (clean_ocr_text t).head? = some d → isWS d = false) ∧
      (∀ d, (clean_ocr_text t).getLast? = some d → isWS d = false)) ∧
    clean_ocr_text [] = [] ∧ clean_ocr_text_opt none = none := by
  refine ⟨?_, rfl, rfl⟩
  intro t ht
  have hform : clean_ocr_text t = stripWS (nl (sp (applyRepl t))) := by
    rw [clean_ocr_text, if_neg ht]
    rfl
  rw [hform]
  refine ⟨?_, ?_, ?_, strip_head _, strip_last _⟩
  · intro hc
    exact nl_preserve_no_tab (sp (applyRepl t)) (sp_no_tab (applyRepl t))
      ((stripWS_within _).sublist.subset hc)
  · intro hc
    exact nl_preserve_no_dbl (sp (applyRepl t)) (sp_no_dbl (applyRepl t))
      (strip_infix_transfer hc)
  · intro hc
    have h1 : hasTriple (stripWS (nl (sp (applyRepl t)))) = true :=
      hasTriple_mono hc (by decide)
    have h2 := hasTriple_mono (stripWS_within (nl (sp (applyRepl t)))) h1
    rw [nl_no_triple] at h2
    cases h2

/-- Witness for claim C10 at the concrete input `" a\t  b "`. -/
theorem C10_clean_output_invariants_witness :
    '\t' ∉ clean_ocr_text (" a\t  b ".data) ∧
    ¬ ([' ', ' '] <:+: clean_ocr_text (" a\t  b ".data)) ∧
    ¬ (['\n', '\n', '\n'] <:+: clean_ocr_text (" a\t  b ".data)) ∧
    (∀ d, (clean_ocr_text (" a\t  b ".data)).head? = some d → isWS d = false) ∧
    (∀ d, (clean_ocr_text (" a\t  b ".data)).getLast? = some d → isWS d = false) :=
  C10_clean_output_invariants.1 (" a\t  b ".data) (by decide)

/-! ### The `process_images` request handler (main.py lines 83-264)

External collaborators are modelled by an `Oracle`; the handler records the
external calls it performs (PDF rasterization, OCR invocations, the
generative-model call) in a trace of events. -/

/-- A parsed JSON value (the result type of `json.loads`). -/
theorem ocrPages_no_model (O : Oracle) :
    ∀ (imgs : List Nat) (p : List Char), Ev.modelCall p ∉ (ocrPages O imgs).1 := by
  intro imgs
  induction imgs with
  | nil => intro p h; cases h
  | cons img rest ih =>
    intro p h
    rw [ocrPages] at h
    match hocr : O.imageToString img defaultConfig, h with
    | .error e, h => simp at h
    | .ok t, h =>
      simp at h
      exact ih p h

theorem extractFile_no_model (O : Oracle) (f : UploadFile) :
    ∀ p, Ev.modelCall p ∉ (extractFile O f).1 := by
  intro p h
  rw [extractFile] at h
  by_cases hpdf : f.content_type = ("application/pdf".data)
  · rw [if_pos hpdf] at h
    match hcv : O.convertFromBytes f.contents, h with
    | .error e, h => simp at h
    | .ok imgs, h =>
      simp at h
      exact ocrPages_no_model O imgs p h
  · rw [if_neg hpdf] at h
    match hop : O.imageOpen f.contents, h with
    | .error e, h => simp at h
    | .ok img, h =>
      simp only [] at h
      match h1 : O.imageToString img config1, h with
      | .error e, h => simp at h
      | .ok t1, h =>
        simp only [] at h
        match h2 : O.imageToString img config2, h with
        | .error e, h => simp at h
        | .ok t2, h =>
          simp only [] at h
          match h3 : O.imageToString img config3, h with
          | .error e, h => simp at h
          | .ok t3, h => simp at h

theorem processLoop_no_model (O : Oracle) :
    ∀ (files : List UploadFile) (c : Nat) (p : List Char),
      Ev.modelCall p ∉ (processLoop O files c).1 := by
  intro files
  induction files with
  | nil => intro c p h; cases h
  | cons f rest ih =>
    intro c p h
    rw [processLoop] at h
    by_cases htype : f.content_type ∈ allowedTypes
    · rw [if_pos htype] at h
      simp only at h
      match hext : (extractFile O f).2, h with
      | .error e, h =>
        simp at h
        exact extractFile_no_model O f p h
      | .ok t, h =>
        simp at h
        rcases h with h' | h'
        · exact extractFile_no_model O f p h'
        · exact ih (c + 1) p h'
    · rw [if_neg htype] at h
      cases h

/-- Claim C8: for an empty uploaded file list, `process_images` returns a
400 error with detail "No files provided" and performs no OCR, PDF
conversion, or model call (the trace is empty). -/
theorem C8_empty_file_list (O : Oracle) :
    process_images O [] = ([], HRes.err 400 ("No files provided".data)) := rfl

/-- Concrete files for witnesses and counterexamples. -/
theorem pick_mem (t1 t2 t3 : List Char) :
    pickLongest t1 t2 t3 = t1 ∨ pickLongest t1 t2 t3 = t2 ∨ pickLongest t1 t2 t3 = t3 := by
  unfold pickLongest
  dsimp only
  split <;> split <;> simp

theorem pick_ge (t1 t2 t3 : List Char) :
    t1.length ≤ (pickLongest t1 t2 t3).length ∧
    t2.length ≤ (pickLongest t1 t2 t3).length ∧
    t3.length ≤ (pickLongest t1 t2 t3).length := by
  unfold pickLongest
  dsimp only
  split <;> split <;> refine ⟨?_, ?_, ?_⟩ <;> omega

/-- Claim C7: for an image file (content type image/jpeg or image/png) whose
three OCR calls succeed, OCR runs exactly three times, with three pairwise
distinct configurations, and the text appended to the framed output is one
of the three OCR outputs whose character length is greater than or equal to
the lengths of the other two. -/
theorem C7_image_three_ocr_longest (O : Oracle) (f : UploadFile) (img : Nat)
    (t1 t2 t3 : List Char)
    (htype : f.content_type = ("image/jpeg".data) ∨ f.content_type = ("image/png".data))
    (hopen : O.imageOpen f.contents = .ok img)
    (h1 : O.imageToString img config1 = .ok t1)
    (h2 : O.imageToString img config2 = .ok t2)
    (h3 : O.imageToString img config3 = .ok t3) :
    extractFile O f = ([Ev.ocr img config1, Ev.ocr img config2, Ev.ocr img config3],
        Except.ok (pickLongest t1 t2 t3 ++ ['\n'])) ∧
    (pickLongest t1 t2 t3 = t1 ∨ pickLongest t1 t2 t3 = t2 ∨ pickLongest t1 t2 t3 = t3) ∧
    t1.length ≤ (pickLongest t1 t2 t3).length ∧
    t2.length ≤ (pickLongest t1 t2 t3).length ∧
    t3.length ≤ (pickLongest t1 t2 t3).length ∧
    config1 ≠ config2 ∧ config1 ≠ config3 ∧ config2 ≠ config3 := by
  have hnotpdf : ¬ f.content_type = ("application/pdf".data) := by
    rcases htype with h | h <;> rw [h] <;> decide
  refine ⟨?_, pick_mem t1 t2 t3, (pick_ge t1 t2 t3).1, (pick_ge t1 t2 t3).2.1,
    (pick_ge t1 t2 t3).2.2, by decide, by decide, by decide⟩
  rw [extractFile, if_neg hnotpdf, hopen]
  simp only []
  rw [h1]
  simp only []
  rw [h2]
  simp only []
  rw [h3]

/-- Witness for claim C7 at a concrete PNG upload and oracle. -/
theorem C7_image_three_ocr_longest_witness :
    extractFile oracleOkX filePng = ([Ev.ocr 0 config1, Ev.ocr 0 config2, Ev.ocr 0 config3],
        Except.ok (pickLongest ("x".data) ("x".data) ("x".data) ++ ['\n'])) ∧
    (pickLongest ("x".data) ("x".data) ("x".data) = "x".data ∨
      pickLongest ("x".data) ("x".data) ("x".data) = "x".data ∨
      pickLongest ("x".data) ("x".data) ("x".data) = "x".data) ∧
    ("x".data).length ≤ (pickLongest ("x".data) ("x".data) ("x".data)).length ∧
    ("x".data).length ≤ (pickLongest ("x".data) ("x".data) ("x".data)).length ∧
    ("x".data).length ≤ (pickLongest ("x".data) ("x".data) ("x".data)).length ∧
    config1 ≠ config2 ∧ config1 ≠ config3 ∧ config2 ≠ config3 :=
  C7_image_three_ocr_longest oracleOkX filePng 0 ("x".data) ("x".data) ("x".data)
    (Or.inr rfl) rfl rfl rfl rfl

/-- `Bool` test for a successful `Except` (a call that did not raise). -/
theorem processLoop_nil (O : Oracle) (c : Nat) : processLoop O [] c = ([], .ok []) := rfl

theorem processLoop_cons_bad {O : Oracle} {f : UploadFile} (rest : List UploadFile) (c : Nat)
    (hbad : f.content_type ∉ allowedTypes) :
    processLoop O (f :: rest) c =
      ([], .error (400, ("Unsupported file type: ".data) ++ f.content_type)) := by
  rw [processLoop, if_neg hbad]

theorem processLoop_cons_err {O : Oracle} {f : UploadFile} {e : List Char}
    (rest : List UploadFile) (c : Nat)
    (hty : f.content_type ∈ allowedTypes) (hext : (extractFile O f).2 = .error e) :
    processLoop O (f :: rest) c =
      ((extractFile O f).1,
        .error (500, ("Error processing file ".data) ++ f.filename ++ (": ".data) ++ e)) := by
  rw [processLoop, if_pos hty]
  simp only []
  rw [hext]

theorem processLoop_cons_ok {O : Oracle} {f : UploadFile} {t : List Char}
    (rest : List UploadFile) (c : Nat)
    (hty : f.content_type ∈ allowedTypes) (hext : (extractFile O f).2 = .ok t) :
    processLoop O (f :: rest) c =
      ((extractFile O f).1 ++ (processLoop O rest (c + 1)).1,
        match (processLoop O rest (c + 1)).2 with
        | .error h => .error h
        | .ok restText => .ok (billHeader c ++ (t ++ (billFooter c ++ restText)))) := by
  rw [processLoop, if_pos hty]
  simp only []
  rw [hext]

theorem exOk_ok {ε α : Type} {x : Except ε α} (h : exOk x = true) : ∃ t, x = Except.ok t := by
  match x, h with
  | .ok t, _ => exact ⟨t, rfl⟩

/-- Reaching a disallowed file aborts the loop with a 400 error whose events
are exactly those of the earlier (valid, successfully extracted) files; the
files after the disallowed one contribute nothing. -/
theorem processLoop_reject {O : Oracle} {pre : List UploadFile} {bad : UploadFile}
    (post : List UploadFile)
    (hpre : ∀ f ∈ pre, f.content_type ∈ allowedTypes ∧ exOk (extractFile O f).2 = true)
    (hbad : bad.content_type ∉ allowedTypes) :
    ∀ c, processLoop O (pre ++ bad :: post) c =
      ((processLoop O pre c).1,
        .error (400, ("Unsupported file type: ".data) ++ bad.content_type)) := by
  induction pre with
  | nil =>
    intro c
    rw [List.nil_append, processLoop_cons_bad post c hbad]
    rfl
  | cons f pre' ih =>
    intro c
    obtain ⟨htype, hok⟩ := hpre f (by simp)
    obtain ⟨t, hext⟩ := exOk_ok hok
    have ih' := ih (fun g hg => hpre g (by simp [hg]))
    rw [List.cons_append, processLoop_cons_ok _ c htype hext, ih' (c + 1),
      processLoop_cons_ok pre' c htype hext]

/-- A failing extraction aborts the loop with a 500 error naming the file;
events are those of the earlier files plus the failing file\x27s, and the
files after the failing one contribute nothing. -/
theorem processLoop_fail {O : Oracle} {pre : List UploadFile} {bad : UploadFile}
    {e : List Char} (post : List UploadFile)
    (hpre : ∀ f ∈ pre, f.content_type ∈ allowedTypes ∧ exOk (extractFile O f).2 = true)
    (hty : bad.content_type ∈ allowedTypes)
    (hfail : (extractFile O bad).2 = .error e) :
    ∀ c, processLoop O (pre ++ bad :: post) c =
      ((processLoop O pre c).1 ++ (extractFile O bad).1,
        .error (500, ("Error processing file ".data) ++ bad.filename ++ (": ".data) ++ e)) := by
  induction pre with
  | nil =>
    intro c
    rw [List.nil_append, processLoop_cons_err post c hty hfail]
    rfl
  | cons f pre' ih =>
    intro c
    obtain ⟨htype, hok⟩ := hpre f (by simp)
    obtain ⟨t, hext⟩ := exOk_ok hok
    have ih' := ih (fun g hg => hpre g (by simp [hg]))
    rw [List.cons_append, processLoop_cons_ok _ c htype hext, ih' (c + 1),
      processLoop_cons_ok pre' c htype hext]
    simp [List.append_assoc]

theorem process_images_of_loop_err {O : Oracle} {files : List UploadFile}
    {s : Nat} {d : List Char} (hne : files ≠ [])
    (hloop : processLoop O files 1 = ((processLoop O files 1).1, .error (s, d))) :
    process_images O files = ((processLoop O files 1).1, HRes.err s d) := by
  rw [process_images, if_neg hne]
  simp only []
  rw [hloop]

/-- Claim C1 (amended): the handler rejects with 400 when the loop reaches
the first file with a disallowed content type; the disallowed file and all
later files get no extraction work, and the model is never called; files
before the disallowed one have already been extracted (none when the
disallowed file is first). -/
theorem C1_amended_reject_on_reaching_bad_file (O : Oracle) (pre post : List UploadFile)
    (bad : UploadFile)
    (hpre : ∀ f ∈ pre, f.content_type ∈ allowedTypes ∧ exOk (extractFile O f).2 = true)
    (hbad : bad.content_type ∉ allowedTypes) :
    process_images O (pre ++ bad :: post) =
      ((processLoop O pre 1).1,
        HRes.err 400 (("Unsupported file type: ".data) ++ bad.content_type)) ∧
    (∀ p, Ev.modelCall p ∉ (processLoop O pre 1).1) ∧
    (pre = [] → (processLoop O pre 1).1 = []) := by
  have hne : pre ++ bad :: post ≠ [] := by simp
  have hloop := processLoop_reject post hpre hbad 1
  refine ⟨?_, fun p => processLoop_no_model O pre 1 p, fun hp => by subst hp; rfl⟩
  have h2 : (processLoop O (pre ++ bad :: post) 1).1 = (processLoop O pre 1).1 := by
    rw [hloop]
  rw [process_images, if_neg hne]
  simp only []
  rw [hloop]

/-- Counterexample to claim C1 as stated: with a valid JPEG first and a
disallowed file second, the request is rejected with the 400 error, but OCR
work has already been performed before the rejection. -/
theorem C1_counterexample_ocr_before_reject :
    (process_images oracleOkX [fileJpg, fileTxt]).2 =
      HRes.err 400 (("Unsupported file type: ".data) ++ ("text/plain".data)) ∧
    Ev.ocr 0 config1 ∈ (process_images oracleOkX [fileJpg, fileTxt]).1 := by
  constructor
  · rfl
  · decide

/-- Witness for the amended claim C1 at a concrete two-file upload. -/
theorem C1_amended_reject_witness :
    process_images oracleOkX ([fileJpg] ++ fileTxt :: []) =
      ((processLoop oracleOkX [fileJpg] 1).1,
        HRes.err 400 (("Unsupported file type: ".data) ++ fileTxt.content_type)) ∧
    (∀ p, Ev.modelCall p ∉ (processLoop oracleOkX [fileJpg] 1).1) ∧
    ([fileJpg] = ([] : List UploadFile) → (processLoop oracleOkX [fileJpg] 1).1 = []) :=
  C1_amended_reject_on_reaching_bad_file oracleOkX [fileJpg] [] fileTxt
    (by decide) (by decide)

/-- Claim C6: if extraction raises for the file at position k (while all
earlier files validated and extracted), the whole request fails with a 500
error whose detail names that file\x27s filename, no extraction is attempted
for any later file (the result does not depend on `post`), the model is
never called, and no partial result is returned. -/
theorem C6_extraction_failure_aborts (O : Oracle) (pre post : List UploadFile)
    (bad : UploadFile) (e : List Char)
    (hpre : ∀ f ∈ pre, f.content_type ∈ allowedTypes ∧ exOk (extractFile O f).2 = true)
    (hty : bad.content_type ∈ allowedTypes)
    (hfail : (extractFile O bad).2 = .error e) :
    process_images O (pre ++ bad :: post) =
      ((processLoop O pre 1).1 ++ (extractFile O bad).1,
        HRes.err 500 (("Error processing file ".data) ++ bad.filename ++ (": ".data) ++ e)) ∧
    (∀ p, Ev.modelCall p ∉ (processLoop O pre 1).1 ++ (extractFile O bad).1) := by
  have hne : pre ++ bad :: post ≠ [] := by simp
  have hloop := processLoop_fail post hpre hty hfail 1
  constructor
  · rw [process_images, if_neg hne]
    simp only []
    rw [hloop]
  · intro p hp
    rcases List.mem_append.mp hp with h | h
    · exact processLoop_no_model O pre 1 p h
    · exact extractFile_no_model O bad p h

/-- Witness for claim C6: a single JPEG whose OCR raises "boom". -/
theorem C6_extraction_failure_witness :
    process_images oracleBoom ([] ++ fileJpg :: []) =
      ((processLoop oracleBoom [] 1).1 ++ (extractFile oracleBoom fileJpg).1,
        HRes.err 500 (("Error processing file ".data) ++ fileJpg.filename ++ (": ".data) ++
          ("boom".data))) ∧
    (∀ p, Ev.modelCall p ∉ (processLoop oracleBoom [] 1).1 ++ (extractFile oracleBoom fileJpg).1) :=
  C6_extraction_failure_aborts oracleBoom [] [] fileJpg ("boom".data)
    (by decide) (by decide) rfl

theorem process_images_resp {O : Oracle} {files : List UploadFile}
    {allText resp : List Char} (hne : files ≠ [])
    (hloop : (processLoop O files 1).2 = .ok allText)
    (hblank : stripWS allText ≠ [])
    (hgen : O.generate (promptFor allText) = .ok resp) :
    process_images O files =
      ((processLoop O files 1).1 ++ [Ev.modelCall (promptFor allText)],
        match O.jsonLoads (fenceStrip resp) with
        | .ok v => HRes.ok v
        | .error e => HRes.err 500 (("Invalid JSON from Gemini: ".data) ++
            (fenceStrip resp).take 200 ++ ("... Error: ".data) ++ e)) := by
  rw [process_images, if_neg hne]
  simp only []
  rw [hloop]
  simp only []
  rw [if_neg hblank, hgen]
  simp only []
  cases hjl : O.jsonLoads (fenceStrip resp) <;> simp

/-- Claim C5: if the model response (after stripping surrounding whitespace)
is wrapped in markdown fences, the handler strips exactly the leading
```json marker and the trailing ``` marker and hands the interior to the
JSON parser; a successfully parsed value is returned, and a response whose
resulting body is not valid JSON fails the request with a 500 error whose
detail includes the first 200 characters of the offending text. -/
theorem C5_fence_markers_and_parse_failure (O : Oracle) (files : List UploadFile)
    (allText resp : List Char)
    (hne : files ≠ [])
    (hloop : (processLoop O files 1).2 = .ok allText)
    (hblank : stripWS allText ≠ [])
    (hgen : O.generate (promptFor allText) = .ok resp) :
    (∀ mid, stripWS resp = ("```json".data) ++ mid ++ ("```".data) →
      fenceStrip resp = stripWS mid) ∧
    (∀ v, O.jsonLoads (fenceStrip resp) = .ok v → (process_images O files).2 = HRes.ok v) ∧
    (∀ e, O.jsonLoads (fenceStrip resp) = .error e →
      (process_images O files).2 =
        HRes.err 500 (("Invalid JSON from Gemini: ".data) ++ (fenceStrip resp).take 200 ++
          ("... Error: ".data) ++ e) ∧
      (fenceStrip resp).take 200 <:+:
        (("Invalid JSON from Gemini: ".data) ++ (fenceStrip resp).take 200 ++
          ("... Error: ".data) ++ e)) := by
  have hmain := process_images_resp hne hloop hblank hgen
  refine ⟨?_, ?_, ?_⟩
  · intro mid hmid
    unfold fenceStrip
    simp only []
    rw [hmid]
    have hpre7 : ("```json".data) <+: ("```json".data) ++ mid ++ ("```".data) :=
      List.prefix_append _ _
    rw [if_pos hpre7]
    have hdrop : (("```json".data) ++ mid ++ ("```".data)).drop 7 = mid ++ ("```".data) := by
      rw [show (7 : Nat) = ("```json".data).length from rfl]
      exact List.drop_left _ _
    rw [hdrop]
    have hsuf : ("```".data) <:+ mid ++ ("```".data) := ⟨mid, rfl⟩
    rw [if_pos hsuf]
    have htake : (mid ++ ("```".data)).take ((mid ++ ("```".data)).length - 3) = mid := by
      have hlen : (mid ++ ("```".data)).length - 3 = mid.length := by simp
      rw [hlen]
      exact List.take_left _ _
    rw [htake]
  · intro v hv
    rw [hmain]
    simp only []
    rw [hv]
  · intro e he
    constructor
    · rw [hmain]
      simp only []
      rw [he]
    · exact ⟨("Invalid JSON from Gemini: ".data), ("... Error: ".data) ++ e, by simp⟩

/-- Witness for claim C5 at a concrete upload whose model response is
fenced. -/
theorem C5_fence_markers_witness :
    (∀ mid, stripWS ("```json [1] ```".data) = ("```json".data) ++ mid ++ ("```".data) →
      fenceStrip ("```json [1] ```".data) = stripWS mid) ∧
    (∀ v, oracleOkX.jsonLoads (fenceStrip ("```json [1] ```".data)) = .ok v →
      (process_images oracleOkX [fileJpg]).2 = HRes.ok v) ∧
    (∀ e, oracleOkX.jsonLoads (fenceStrip ("```json [1] ```".data)) = .error e →
      (process_images oracleOkX [fileJpg]).2 =
        HRes.err 500 (("Invalid JSON from Gemini: ".data) ++
          (fenceStrip ("```json [1] ```".data)).take 200 ++ ("... Error: ".data) ++ e) ∧
      (fenceStrip ("```json [1] ```".data)).take 200 <:+:
        (("Invalid JSON from Gemini: ".data) ++
          (fenceStrip ("```json [1] ```".data)).take 200 ++ ("... Error: ".data) ++ e)) :=
  C5_fence_markers_and_parse_failure oracleOkX [fileJpg]
    (okPayload (processLoop oracleOkX [fileJpg] 1).2) ("```json [1] ```".data)
    (by decide) rfl (by decide) rfl

/-- Claim C9: on a successful request the handler returns exactly the value
produced by JSON-parsing the fence-stripped model response, unchanged and
without any schema validation — whatever `Json` value the parser produced. -/
theorem C9_parsed_value_returned_unvalidated (O : Oracle) (files : List UploadFile)
    (allText resp : List Char) (v : Json)
    (hne : files ≠ [])
    (hloop : (processLoop O files 1).2 = .ok allText)
    (hblank : stripWS allText ≠ [])
    (hgen : O.generate (promptFor allText) = .ok resp)
    (hparse : O.jsonLoads (fenceStrip resp) = .ok v) :
    (process_images O files).2 = HRes.ok v := by
  rw [process_images_resp hne hloop hblank hgen]
  simp only []
  rw [hparse]

/-- Witness for claim C9: the parser returns the bare (non-array) JSON
number 7, and the handler returns it unchanged. -/
theorem C9_parsed_value_returned_witness :
    (process_images oracleNum [fileJpg]).2 = HRes.ok (Json.num 7) :=
  C9_parsed_value_returned_unvalidated oracleNum [fileJpg]
    (okPayload (processLoop oracleNum [fileJpg] 1).2) ("```json [1] ```".data) (Json.num 7)
    (by decide) rfl (by decide) rfl rfl

/-- Claim C3 evidence (code bug): a request whose OCR extracts only blank
text is not rejected with the "No text extracted from images" 400 error —
the unconditionally added banner text makes the blank check pass, the model
is called, and the request succeeds. -/
theorem C3_blank_ocr_text_still_calls_model :
    hasModelCall (process_images oracleBlank [fileJpg]).1 = true ∧
    (process_images oracleBlank [fileJpg]).2 = HRes.ok (Json.arr []) ∧
    (process_images oracleBlank [fileJpg]).2 ≠
      HRes.err 400 ("No text extracted from images".data) := by
  refine ⟨rfl, rfl, ?_⟩
  intro hcon
  have h2 := (rfl : (process_images oracleBlank [fileJpg]).2 =
    HRes.ok (Json.arr [])).symm.trans hcon
  cases h2

/-! ### Counting banner occurrences (claim C4) -/

/-- Number of positions of `l` at which `pat` occurs (all positions,
including overlapping ones; `pat` is assumed nonempty). -/
theorem occ_nil (pat : List Char) : occCount pat [] = 0 := rfl

theorem occ_cons (pat : List Char) (c : Char) (r : List Char) :
    occCount pat (c :: r) = (if pat <+: (c :: r) then 1 else 0) + occCount pat r := rfl

/-- A newline-free pattern is a prefix of `a ++ '\n' :: b` only within `a`. -/
theorem pref_nonl {pat : List Char} (a b : List Char) (hnl : '\n' ∉ pat) :
    pat <+: a ++ '\n' :: b ↔ pat <+: a := by
  constructor
  · intro h
    rcases prefix_append_split h with h' | ⟨m', hm', hm'p⟩
    · exact h'
    · match m', hm'p with
      | [], _ =>
        rw [List.append_nil] at hm'
        exact hm' ▸ List.prefix_refl a
      | c :: m'', hp =>
        obtain ⟨hc, -⟩ := List.cons_prefix_cons.mp hp
        exfalso
        apply hnl
        rw [hm', ← hc]
        simp
  · intro h
    exact h.trans (List.prefix_append a ('\n' :: b))

/-- Occurrences of a nonempty newline-free pattern split at a newline. -/
theorem occ_append_nl {pat : List Char} (a b : List Char)
    (hp : pat ≠ []) (hnl : '\n' ∉ pat) :
    occCount pat (a ++ '\n' :: b) = occCount pat a + occCount pat b := by
  induction a with
  | nil =>
    rw [List.nil_append, occ_cons, occ_nil]
    have : ¬ pat <+: '\n' :: b := by
      intro hcon
      match pat, hp, hcon with
      | c :: p', _, hcon =>
        obtain ⟨hc, -⟩ := List.cons_prefix_cons.mp hcon
        exact hnl (by simp [hc])
    rw [if_neg this]
  | cons x a' ih =>
    rw [List.cons_append, occ_cons, occ_cons, ih]
    have : (pat <+: x :: (a' ++ '\n' :: b)) ↔ (pat <+: x :: a') := by
      rw [show x :: (a' ++ '\n' :: b) = (x :: a') ++ '\n' :: b from rfl]
      exact pref_nonl (x :: a') b hnl
    rw [if_congr this rfl rfl]
    omega

/-- A pattern starting with `h₀` has no occurrence starting inside a block
free of `h₀`. -/
theorem occ_append_head_notin {pat a : List Char} {h₀ : Char} (b : List Char)
    (hpat : ∃ q, pat = h₀ :: q) (ha : h₀ ∉ a) :
    occCount pat (a ++ b) = occCount pat b := by
  induction a with
  | nil => rw [List.nil_append]
  | cons x a' ih =>
    rw [List.cons_append, occ_cons]
    have : ¬ pat <+: x :: (a' ++ b) := by
      rcases hpat with ⟨q, hq⟩
      subst hq
      intro hcon
      obtain ⟨hc, -⟩ := List.cons_prefix_cons.mp hcon
      exact ha (by simp [hc])
    rw [if_neg this, ih (fun hc => ha (by simp [hc]))]
    omega

theorem occ_zero_of_head_notin {pat l : List Char} {h₀ : Char}
    (hpat : ∃ q, pat = h₀ :: q) (hl : h₀ ∉ l) : occCount pat l = 0 := by
  have := occ_append_head_notin (a := l) [] hpat hl
  rw [List.append_nil] at this
  rw [this, occ_nil]

theorem digitChar_isDigit : ∀ m : Nat, m < 10 → (Nat.digitChar m).isDigit = true := by decide

theorem digitChar_inj10 :
    ∀ a : Nat, a < 10 → ∀ b : Nat, b < 10 → Nat.digitChar a = Nat.digitChar b → a = b := by decide

theorem natReprAux_digits : ∀ fuel n, n < fuel → ∀ c ∈ natReprAux fuel n, c.isDigit = true := by
  intro fuel
  induction fuel with
  | zero => intro n hn; omega
  | succ fuel ih =>
    intro n hn c hc
    rw [natReprAux] at hc
    by_cases h10 : n < 10
    · rw [if_pos h10] at hc
      rcases List.mem_cons.mp hc with h | h
      · subst h
        exact digitChar_isDigit n h10
      · cases h
    · rw [if_neg h10] at hc
      rcases List.mem_append.mp hc with h | h
      · exact ih (n / 10) (by omega) c h
      · rcases List.mem_cons.mp h with h' | h'
        · subst h'
          exact digitChar_isDigit (n % 10) (Nat.mod_lt n (by omega))
        · cases h'

theorem natRepr_digits (n : Nat) : ∀ c ∈ natRepr n, c.isDigit = true :=
  natReprAux_digits (n + 1) n (by omega)

theorem natReprAux_ne_nil : ∀ fuel n, n < fuel → natReprAux fuel n ≠ [] := by
  intro fuel
  induction fuel with
  | zero => intro n hn; omega
  | succ fuel ih =>
    intro n hn
    rw [natReprAux]
    by_cases h10 : n < 10
    · rw [if_pos h10]; simp
    · rw [if_neg h10]; simp

theorem natRepr_ne_nil (n : Nat) : natRepr n ≠ [] :=
  natReprAux_ne_nil (n + 1) n (by omega)

theorem natReprAux_irrel : ∀ fuel fuel' n, n < fuel → n < fuel' →
    natReprAux fuel n = natReprAux fuel' n := by
  intro fuel
  induction fuel with
  | zero => intro fuel' n hn; omega
  | succ fuel ih =>
    intro fuel' n hn hn'
    match fuel', hn' with
    | fuel' + 1, hn' =>
      rw [natReprAux, natReprAux]
      by_cases h10 : n < 10
      · rw [if_pos h10, if_pos h10]
      · rw [if_neg h10, if_neg h10, ih fuel' (n / 10) (by omega) (by omega)]

theorem natRepr_unfold (n : Nat) :
    natRepr n = if n < 10 then [Nat.digitChar n]
      else natRepr (n / 10) ++ [Nat.digitChar (n % 10)] := by
  unfold natRepr
  rw [natReprAux]
  by_cases h10 : n < 10
  · rw [if_pos h10, if_pos h10]
  · rw [if_neg h10, if_neg h10,
      natReprAux_irrel n (n / 10 + 1) (n / 10) (by omega) (by omega)]

theorem natRepr_inj : ∀ m n : Nat, natRepr m = natRepr n → m = n := by
  have main : ∀ b m n : Nat, m < b → natRepr m = natRepr n → m = n := by
    intro b
    induction b with
    | zero => intro m n hm; omega
    | succ b ih =>
      intro m n hm h
      rw [natRepr_unfold m, natRepr_unfold n] at h
      by_cases hm10 : m < 10 <;> by_cases hn10 : n < 10
      · rw [if_pos hm10, if_pos hn10] at h
        have hd : Nat.digitChar m = Nat.digitChar n := by
          injection h
        exact digitChar_inj10 m hm10 n hn10 hd
      · rw [if_pos hm10, if_neg hn10] at h
        exfalso
        have hne := natRepr_ne_nil (n / 10)
        have := congrArg List.length h
        rw [List.length_append] at this
        simp only [List.length_cons, List.length_nil, List.length_singleton] at this
        have : 1 ≤ (natRepr (n / 10)).length := by
          cases hh : natRepr (n / 10) with
          | nil => exact absurd hh hne
          | cons a b => simp
        omega
      · rw [if_neg hm10, if_pos hn10] at h
        exfalso
        have hne := natRepr_ne_nil (m / 10)
        have := congrArg List.length h
        rw [List.length_append] at this
        simp only [List.length_cons, List.length_nil, List.length_singleton] at this
        have : 1 ≤ (natRepr (m / 10)).length := by
          cases hh : natRepr (m / 10) with
          | nil => exact absurd hh hne
          | cons a b => simp
        omega
      · rw [if_neg hm10, if_neg hn10] at h
        obtain ⟨h1, h2⟩ := List.append_inj' h (by simp)
        have hd : Nat.digitChar (m % 10) = Nat.digitChar (n % 10) := by
          injection h2
        have hmod : m % 10 = n % 10 :=
          digitChar_inj10 (m % 10) (Nat.mod_lt m (by omega)) (n % 10)
            (Nat.mod_lt n (by omega)) hd
        have hdiv : m / 10 = n / 10 := ih (m / 10) (n / 10) (by omega) h1
        omega
  intro m n
  exact main (m + 1) m n (by omega)

theorem sb_cons (n : Nat) : startBanner n =
    'B' :: 'I' :: 'L' :: 'L' :: ' ' :: 'N' :: 'U' :: 'M' :: 'B' :: 'E' :: 'R' :: ' ' ::
      (natRepr n ++ (" - START".data)) := rfl

theorem eb_cons (n : Nat) : endBanner n =
    'B' :: 'I' :: 'L' :: 'L' :: ' ' :: 'N' :: 'U' :: 'M' :: 'B' :: 'E' :: 'R' :: ' ' ::
      (natRepr n ++ (" - END".data)) := rfl

theorem isDigit_ne {c : Char} (h : c.isDigit = true) : c ≠ '\n' ∧ c ≠ 'B' := by
  constructor <;> intro hc <;> subst hc <;> cases h

theorem nl_not_in_sb (n : Nat) : '\n' ∉ startBanner n := by
  rw [sb_cons]
  intro h
  simp only [List.mem_cons] at h
  rcases h with h | h | h | h | h | h | h | h | h | h | h | h | h
  all_goals first
    | (exact absurd h (by decide))
    | (rcases List.mem_append.mp h with h' | h'
       · exact absurd rfl (isDigit_ne (natRepr_digits n _ h')).1
       · exact absurd h' (by decide))

theorem nl_not_in_eb (n : Nat) : '\n' ∉ endBanner n := by
  rw [eb_cons]
  intro h
  simp only [List.mem_cons] at h
  rcases h with h | h | h | h | h | h | h | h | h | h | h | h | h
  all_goals first
    | (exact absurd h (by decide))
    | (rcases List.mem_append.mp h with h' | h'
       · exact absurd rfl (isDigit_ne (natRepr_digits n _ h')).1
       · exact absurd h' (by decide))

theorem b_not_in_eqLine : 'B' ∉ eqLine := by
  intro h
  have := List.eq_of_mem_replicate h
  cases this

/-- Comparing two digit strings followed by a space-led suffix: a prefix
relation forces the digit strings to agree. -/
theorem digits_prefix_eq : ∀ (dn di s t : List Char),
    (∀ c ∈ dn, c.isDigit = true) → (∀ c ∈ di, c.isDigit = true) →
    (dn ++ ' ' :: s) <+: (di ++ ' ' :: t) → dn = di ∧ s <+: t := by
  intro dn
  induction dn with
  | nil =>
    intro di s t _ hdi h
    match di, h with
    | [], h =>
      obtain ⟨-, h2⟩ := List.cons_prefix_cons.mp h
      exact ⟨rfl, h2⟩
    | d :: di', h =>
      obtain ⟨hc, -⟩ := List.cons_prefix_cons.mp (by simpa using h)
      have := hdi d (by simp)
      rw [← hc] at this
      cases this
  | cons a dn' ih =>
    intro di s t hdn hdi h
    match di, h with
    | [], h =>
      obtain ⟨hc, -⟩ := List.cons_prefix_cons.mp (by simpa using h)
      have := hdn a (by simp)
      rw [hc] at this
      cases this
    | d :: di', h =>
      obtain ⟨hc, h2⟩ := List.cons_prefix_cons.mp (by simpa using h)
      obtain ⟨he, hp⟩ := ih di' s t (fun c hcm => hdn c (by simp [hcm]))
        (fun c hcm => hdi c (by simp [hcm])) h2
      exact ⟨by rw [hc, he], hp⟩

theorem bill_tail_pref {n i : Nat} {s t : List Char}
    (h : (natRepr n ++ ' ' :: s) <+: (natRepr i ++ ' ' :: t)) : n = i ∧ s <+: t := by
  obtain ⟨he, hp⟩ := digits_prefix_eq (natRepr n) (natRepr i) s t
    (natRepr_digits n) (natRepr_digits i) h
  exact ⟨natRepr_inj n i he, hp⟩

/-- No occurrence of a banner-shaped pattern starts strictly inside a banner
line. -/
theorem occ_tail_zero (q di sfx : List Char)
    (hdi : ∀ c ∈ di, c.isDigit = true) (hsfx : 'B' ∉ sfx) :
    occCount ('B' :: 'I' :: 'L' :: 'L' :: ' ' :: 'N' :: 'U' :: 'M' :: 'B' :: 'E' :: 'R' :: ' ' :: q)
      ('I' :: 'L' :: 'L' :: ' ' :: 'N' :: 'U' :: 'M' :: 'B' :: 'E' :: 'R' :: ' ' :: (di ++ sfx)) = 0 := by
  have hBdi : 'B' ∉ di := by
    intro h
    exact absurd rfl (isDigit_ne (hdi 'B' h)).2
  have htail : occCount ('B' :: 'I' :: 'L' :: 'L' :: ' ' :: 'N' :: 'U' :: 'M' :: 'B' :: 'E' :: 'R' :: ' ' :: q)
      (di ++ sfx) = 0 := by
    rw [occ_append_head_notin sfx ⟨_, rfl⟩ hBdi]
    exact occ_zero_of_head_notin ⟨_, rfl⟩ hsfx
  simp [occCount, List.cons_prefix_cons, htail]

theorem occ_sb_sb (n i : Nat) :
    occCount (startBanner n) (startBanner i) = if n = i then 1 else 0 := by
  rw [sb_cons n, sb_cons i, occ_cons,
    occ_tail_zero (natRepr n ++ (" - START".data)) (natRepr i) (" - START".data)
      (natRepr_digits i) (by decide)]
  have hiff : ('B' :: 'I' :: 'L' :: 'L' :: ' ' :: 'N' :: 'U' :: 'M' :: 'B' :: 'E' :: 'R' :: ' ' ::
      (natRepr n ++ (" - START".data))) <+:
      ('B' :: 'I' :: 'L' :: 'L' :: ' ' :: 'N' :: 'U' :: 'M' :: 'B' :: 'E' :: 'R' :: ' ' ::
        (natRepr i ++ (" - START".data))) ↔ n = i := by
    constructor
    · intro h
      simp only [List.cons_prefix_cons, true_and] at h
      exact (bill_tail_pref (by simpa using h)).1
    · rintro rfl
      exact List.prefix_refl _
  rw [if_congr hiff rfl rfl]
  omega

theorem occ_sb_eb (n i : Nat) : occCount (startBanner n) (endBanner i) = 0 := by
  rw [sb_cons n, eb_cons i, occ_cons,
    occ_tail_zero (natRepr n ++ (" - START".data)) (natRepr i) (" - END".data)
      (natRepr_digits i) (by decide)]
  have hneg : ¬ ('B' :: 'I' :: 'L' :: 'L' :: ' ' :: 'N' :: 'U' :: 'M' :: 'B' :: 'E' :: 'R' :: ' ' ::
      (natRepr n ++ (" - START".data))) <+:
      ('B' :: 'I' :: 'L' :: 'L' :: ' ' :: 'N' :: 'U' :: 'M' :: 'B' :: 'E' :: 'R' :: ' ' ::
        (natRepr i ++ (" - END".data))) := by
    intro h
    simp only [List.cons_prefix_cons, true_and] at h
    have := (bill_tail_pref (by simpa using h)).2
    exact absurd this (by decide)
  rw [if_neg hneg]

theorem occ_eb_sb (n i : Nat) : occCount (endBanner n) (startBanner i) = 0 := by
  rw [eb_cons n, sb_cons i, occ_cons,
    occ_tail_zero (natRepr n ++ (" - END".data)) (natRepr i) (" - START".data)
      (natRepr_digits i) (by decide)]
  have hneg : ¬ ('B' :: 'I' :: 'L' :: 'L' :: ' ' :: 'N' :: 'U' :: 'M' :: 'B' :: 'E' :: 'R' :: ' ' ::
      (natRepr n ++ (" - END".data))) <+:
      ('B' :: 'I' :: 'L' :: 'L' :: ' ' :: 'N' :: 'U' :: 'M' :: 'B' :: 'E' :: 'R' :: ' ' ::
        (natRepr i ++ (" - START".data))) := by
    intro h
    simp only [List.cons_prefix_cons, true_and] at h
    have := (bill_tail_pref (by simpa using h)).2
    exact absurd this (by decide)
  rw [if_neg hneg]

theorem occ_eb_eb (n i : Nat) :
    occCount (endBanner n) (endBanner i) = if n = i then 1 else 0 := by
  rw [eb_cons n, eb_cons i, occ_cons,
    occ_tail_zero (natRepr n ++ (" - END".data)) (natRepr i) (" - END".data)
      (natRepr_digits i) (by decide)]
  have hiff : ('B' :: 'I' :: 'L' :: 'L' :: ' ' :: 'N' :: 'U' :: 'M' :: 'B' :: 'E' :: 'R' :: ' ' ::
      (natRepr n ++ (" - END".data))) <+:
      ('B' :: 'I' :: 'L' :: 'L' :: ' ' :: 'N' :: 'U' :: 'M' :: 'B' :: 'E' :: 'R' :: ' ' ::
        (natRepr i ++ (" - END".data))) ↔ n = i := by
    constructor
    · intro h
      simp only [List.cons_prefix_cons, true_and] at h
      exact (bill_tail_pref (by simpa using h)).1
    · rintro rfl
      exact List.prefix_refl _
  rw [if_congr hiff rfl rfl]
  omega

theorem occ_cons_of_head_ne {p l : List Char} {c h₀ : Char}
    (hq : ∃ q, p = h₀ :: q) (hc : h₀ ≠ c) : occCount p (c :: l) = occCount p l := by
  rcases hq with ⟨q, hp⟩
  subst hp
  rw [occ_cons]
  have : ¬ (h₀ :: q <+: c :: l) := by
    intro hcon
    exact hc (List.cons_prefix_cons.mp hcon).1
  rw [if_neg this]
  omega

theorem sb_shape (n : Nat) : ∃ q, startBanner n = 'B' :: q := ⟨_, sb_cons n⟩

theorem eb_shape (n : Nat) : ∃ q, endBanner n = 'B' :: q := ⟨_, eb_cons n⟩

theorem sb_ne_nil (n : Nat) : startBanner n ≠ [] := by
  rw [sb_cons]
  simp

theorem eb_ne_nil (n : Nat) : endBanner n ≠ [] := by
  rw [eb_cons]
  simp

/-- Occurrences of a banner-shaped pattern in a header block: only the
START banner line can host them. -/
theorem occ_header {p : List Char} (hq : ∃ q, p = 'B' :: q) (hnl : '\n' ∉ p)
    (hne : p ≠ []) (c : Nat) (z : List Char) :
    occCount p (billHeader c ++ z) = occCount p (startBanner c) + occCount p z := by
  have h1 : billHeader c ++ z
      = '\n' :: '\n' :: (eqLine ++ ('\n' :: (startBanner c ++
          ('\n' :: (eqLine ++ ('\n' :: '\n' :: z)))))) := by
    simp [billHeader, List.append_assoc]
  rw [h1, occ_cons_of_head_ne hq (by decide), occ_cons_of_head_ne hq (by decide),
    occ_append_head_notin _ hq b_not_in_eqLine, occ_cons_of_head_ne hq (by decide),
    occ_append_nl _ _ hne hnl, occ_append_head_notin _ hq b_not_in_eqLine,
    occ_cons_of_head_ne hq (by decide), occ_cons_of_head_ne hq (by decide)]

/-- Occurrences of a banner-shaped pattern in a footer block: only the END
banner line can host them. -/
theorem occ_footer {p : List Char} (hq : ∃ q, p = 'B' :: q) (hnl : '\n' ∉ p)
    (hne : p ≠ []) (c : Nat) (z : List Char) :
    occCount p (billFooter c ++ z) = occCount p (endBanner c) + occCount p z := by
  have h1 : billFooter c ++ z
      = '\n' :: (eqLine ++ ('\n' :: (endBanner c ++
          ('\n' :: (eqLine ++ ('\n' :: '\n' :: z)))))) := by
    simp [billFooter, List.append_assoc]
  rw [h1, occ_cons_of_head_ne hq (by decide),
    occ_append_head_notin _ hq b_not_in_eqLine, occ_cons_of_head_ne hq (by decide),
    occ_append_nl _ _ hne hnl, occ_append_head_notin _ hq b_not_in_eqLine,
    occ_cons_of_head_ne hq (by decide), occ_cons_of_head_ne hq (by decide)]

theorem frames_nil (c : Nat) : frames c [] = [] := rfl

theorem frames_cons (c : Nat) (t : List Char) (rest : List (List Char)) :
    frames c (t :: rest) = billHeader c ++ (t ++ (billFooter c ++ frames (c + 1) rest)) := rfl

theorem frames_append : ∀ (xs ys : List (List Char)) (c : Nat),
    frames c (xs ++ ys) = frames c xs ++ frames (c + xs.length) ys := by
  intro xs
  induction xs with
  | nil => intro ys c; simp [frames_nil]
  | cons t xs' ih =>
    intro ys c
    rw [List.cons_append, frames_cons, frames_cons, ih ys (c + 1)]
    rw [show c + (t :: xs').length = c + 1 + xs'.length from by simp only [List.length_cons]; omega]
    simp [List.append_assoc]

theorem occ_frames_sb (n : Nat) : ∀ (texts : List (List Char)) (c : Nat),
    (∀ t ∈ texts, occCount (startBanner n) t = 0) →
    occCount (startBanner n) (frames c texts)
      = if c ≤ n ∧ n < c + texts.length then 1 else 0 := by
  intro texts
  induction texts with
  | nil =>
    intro c _
    rw [frames_nil, occ_nil, if_neg (by simp only [List.length_nil]; omega)]
  | cons t rest ih =>
    intro c hbf
    rw [frames_cons,
      occ_header (sb_shape n) (nl_not_in_sb n) (sb_ne_nil n) c _]
    have hfoot : t ++ (billFooter c ++ frames (c + 1) rest)
        = t ++ ('\n' :: ((eqLine ++ ('\n' :: (endBanner c ++
            ('\n' :: (eqLine ++ ['\n', '\n']))))) ++ frames (c + 1) rest)) := rfl
    rw [hfoot, occ_append_nl _ _ (sb_ne_nil n) (nl_not_in_sb n),
      hbf t (by simp)]
    have hrest : (eqLine ++ ('\n' :: (endBanner c ++ ('\n' :: (eqLine ++ ['\n', '\n'])))))
          ++ frames (c + 1) rest
        = eqLine ++ ('\n' :: (endBanner c ++
            ('\n' :: (eqLine ++ ('\n' :: '\n' :: frames (c + 1) rest))))) := by
      simp [List.append_assoc]
    rw [hrest, occ_append_head_notin _ (sb_shape n) b_not_in_eqLine,
      occ_cons_of_head_ne (sb_shape n) (by decide),
      occ_append_nl _ _ (sb_ne_nil n) (nl_not_in_sb n), occ_sb_eb n c,
      occ_append_head_notin _ (sb_shape n) b_not_in_eqLine,
      occ_cons_of_head_ne (sb_shape n) (by decide),
      occ_cons_of_head_ne (sb_shape n) (by decide),
      ih (c + 1) (fun u hu => hbf u (by simp [hu])), occ_sb_sb n c]
    simp only [List.length_cons]
    by_cases h1 : n = c
    · subst h1
      rw [if_pos rfl, if_neg (by omega), if_pos (by omega)]
    · rw [if_neg h1]
      by_cases h2 : c + 1 ≤ n ∧ n < c + 1 + rest.length
      · rw [if_pos h2, if_pos (by omega)]
      · rw [if_neg h2, if_neg (by omega)]

theorem occ_frames_eb (n : Nat) : ∀ (texts : List (List Char)) (c : Nat),
    (∀ t ∈ texts, occCount (endBanner n) t = 0) →
    occCount (endBanner n) (frames c texts)
      = if c ≤ n ∧ n < c + texts.length then 1 else 0 := by
  intro texts
  induction texts with
  | nil =>
    intro c _
    rw [frames_nil, occ_nil, if_neg (by simp only [List.length_nil]; omega)]
  | cons t rest ih =>
    intro c hbf
    rw [frames_cons,
      occ_header (eb_shape n) (nl_not_in_eb n) (eb_ne_nil n) c _]
    have hfoot : t ++ (billFooter c ++ frames (c + 1) rest)
        = t ++ ('\n' :: ((eqLine ++ ('\n' :: (endBanner c ++
            ('\n' :: (eqLine ++ ['\n', '\n']))))) ++ frames (c + 1) rest)) := rfl
    rw [hfoot, occ_append_nl _ _ (eb_ne_nil n) (nl_not_in_eb n),
      hbf t (by simp)]
    have hrest : (eqLine ++ ('\n' :: (endBanner c ++ ('\n' :: (eqLine ++ ['\n', '\n'])))))
          ++ frames (c + 1) rest
        = eqLine ++ ('\n' :: (endBanner c ++
            ('\n' :: (eqLine ++ ('\n' :: '\n' :: frames (c + 1) rest))))) := by
      simp [List.append_assoc]
    rw [hrest, occ_append_head_notin _ (eb_shape n) b_not_in_eqLine,
      occ_cons_of_head_ne (eb_shape n) (by decide),
      occ_append_nl _ _ (eb_ne_nil n) (nl_not_in_eb n), occ_eb_eb n c,
      occ_append_head_notin _ (eb_shape n) b_not_in_eqLine,
      occ_cons_of_head_ne (eb_shape n) (by decide),
      occ_cons_of_head_ne (eb_shape n) (by decide),
      ih (c + 1) (fun u hu => hbf u (by simp [hu])), occ_eb_sb n c]
    simp only [List.length_cons]
    by_cases h1 : n = c
    · subst h1
      rw [if_pos rfl, if_neg (by omega), if_pos (by omega)]
    · rw [if_neg h1]
      by_cases h2 : c + 1 ≤ n ∧ n < c + 1 + rest.length
      · rw [if_pos h2, if_pos (by omega)]
      · rw [if_neg h2, if_neg (by omega)]

theorem ocrPages_bfree {O : Oracle} (hO : oracleBFree O) :
    ∀ (imgs : List Nat) (t : List Char), (ocrPages O imgs).2 = .ok t →
      ∀ n, occCount (startBanner n) t = 0 ∧ occCount (endBanner n) t = 0 := by
  intro imgs
  induction imgs with
  | nil =>
    intro t ht n
    have : t = [] := by
      have h : (Except.ok [] : Except (List Char) (List Char)) = .ok t := ht
      injection h with h
      exact h.symm
    subst this
    exact ⟨occ_nil _, occ_nil _⟩
  | cons img rest ih =>
    intro t ht n
    rw [ocrPages] at ht
    match hocr : O.imageToString img defaultConfig, ht with
    | .error e, ht => simp at ht
    | .ok t0, ht =>
      simp only [] at ht
      match hrec : (ocrPages O rest).2, ht with
      | .error e, ht => simp at ht
      | .ok ts, ht =>
        simp only [] at ht
        injection ht with ht
        subst ht
        obtain ⟨hs, he⟩ := ih ts hrec n
        obtain ⟨hs0, he0⟩ := hO img defaultConfig t0 hocr n
        constructor
        · rw [occ_append_nl _ _ (sb_ne_nil n) (nl_not_in_sb n), hs0, hs]
        · rw [occ_append_nl _ _ (eb_ne_nil n) (nl_not_in_eb n), he0, he]

theorem extract_bfree {O : Oracle} {f : UploadFile} {t : List Char}
    (hO : oracleBFree O) (hex : (extractFile O f).2 = .ok t) :
    ∀ n, occCount (startBanner n) t = 0 ∧ occCount (endBanner n) t = 0 := by
  intro n
  rw [extractFile] at hex
  by_cases hpdf : f.content_type = ("application/pdf".data)
  · rw [if_pos hpdf] at hex
    match hcv : O.convertFromBytes f.contents, hex with
    | .error e, hex => simp at hex
    | .ok imgs, hex =>
      simp only [] at hex
      exact ocrPages_bfree hO imgs t hex n
  · rw [if_neg hpdf] at hex
    match hop : O.imageOpen f.contents, hex with
    | .error e, hex => simp at hex
    | .ok img, hex =>
      simp only [] at hex
      match h1 : O.imageToString img config1, hex with
      | .error e, hex => simp at hex
      | .ok t1, hex =>
        simp only [] at hex
        match h2 : O.imageToString img config2, hex with
        | .error e, hex => simp at hex
        | .ok t2, hex =>
          simp only [] at hex
          match h3 : O.imageToString img config3, hex with
          | .error e, hex => simp at hex
          | .ok t3, hex =>
            simp only [] at hex
            injection hex with hex
            subst hex
            have hpick : occCount (startBanner n) (pickLongest t1 t2 t3) = 0 ∧
                occCount (endBanner n) (pickLongest t1 t2 t3) = 0 := by
              rcases pick_mem t1 t2 t3 with h | h | h <;> rw [h]
              · exact ⟨(hO img config1 t1 h1 n).1, (hO img config1 t1 h1 n).2⟩
              · exact ⟨(hO img config2 t2 h2 n).1, (hO img config2 t2 h2 n).2⟩
              · exact ⟨(hO img config3 t3 h3 n).1, (hO img config3 t3 h3 n).2⟩
            constructor
            · rw [show pickLongest t1 t2 t3 ++ ['\n']
                  = pickLongest t1 t2 t3 ++ '\n' :: [] from rfl,
                occ_append_nl _ _ (sb_ne_nil n) (nl_not_in_sb n), hpick.1, occ_nil]
            · rw [show pickLongest t1 t2 t3 ++ ['\n']
                  = pickLongest t1 t2 t3 ++ '\n' :: [] from rfl,
                occ_append_nl _ _ (eb_ne_nil n) (nl_not_in_eb n), hpick.2, occ_nil]

/-- A successful loop run produces exactly the framed concatenation of the
per-file texts, with the bill counter rising by one per successfully
extracted file. -/
theorem loop_frames {O : Oracle} (hO : oracleBFree O) :
    ∀ (files : List UploadFile) (c : Nat) (allText : List Char),
      (processLoop O files c).2 = .ok allText →
      ∃ texts : List (List Char), texts.length = files.length ∧
        allText = frames c texts ∧
        ∀ t ∈ texts, ∀ n, occCount (startBanner n) t = 0 ∧ occCount (endBanner n) t = 0 := by
  intro files
  induction files with
  | nil =>
    intro c allText h
    have h' : (Except.ok [] : Except (Nat × List Char) (List Char)) = .ok allText := h
    injection h' with h'
    exact ⟨[], rfl, h'.symm, by simp⟩
  | cons f rest ih =>
    intro c allText h
    by_cases hty : f.content_type ∈ allowedTypes
    · cases hex : (extractFile O f).2 with
      | error e =>
        rw [processLoop_cons_err rest c hty hex] at h
        simp at h
      | ok t =>
        rw [processLoop_cons_ok rest c hty hex] at h
        simp only [] at h
        match hrec : (processLoop O rest (c + 1)).2, h with
        | .error hh, h => simp at h
        | .ok restText, h =>
          simp only [] at h
          injection h with h
          obtain ⟨texts', hlen, hframe, hbf⟩ := ih (c + 1) restText hrec
          refine ⟨t :: texts', by simp [hlen], ?_, ?_⟩
          · rw [frames_cons, ← h, hframe]
          · intro u hu n
            rcases List.mem_cons.mp hu with h' | h'
            · subst h'
              exact extract_bfree hO hex n
            · exact hbf u h' n
    · rw [processLoop_cons_bad rest c hty] at h
      simp at h

/-- Claim C4: for a request whose files all pass validation and extraction,
the framed text handed to normalization contains exactly one
"BILL NUMBER n - START" and one "BILL NUMBER n - END" banner for each
n from 1 to N (the number of files, in upload order: the framing is
`frames 1 texts` with the counter incremented only after each successful
extraction), no banner with any other index, and each END banner n splits
the text so that START banner n lies strictly before it and START banner
n+1 strictly after it.  The OCR texts are assumed not to contain banner
lines themselves (`oracleBFree`). -/
theorem C4_banner_framing (O : Oracle) (files : List UploadFile) (allText : List Char)
    (hO : oracleBFree O)
    (hloop : (processLoop O files 1).2 = .ok allText) :
    ∃ texts : List (List Char), texts.length = files.length ∧ allText = frames 1 texts ∧
      (∀ n, 1 ≤ n → n ≤ files.length →
        occCount (startBanner n) allText = 1 ∧
        occCount (endBanner n) allText = 1 ∧
        ∃ P Q, allText = P ++ (endBanner n ++ Q) ∧
          occCount (startBanner n) P = 1 ∧
          (n < files.length → occCount (startBanner (n + 1)) Q = 1)) ∧
      (∀ n, files.length < n ∨ n = 0 →
        occCount (startBanner n) allText = 0 ∧ occCount (endBanner n) allText = 0) := by
  obtain ⟨texts, hlen, hframe, hbf⟩ := loop_frames hO files 1 allText hloop
  refine ⟨texts, hlen, hframe, ?_, ?_⟩
  · intro n h1 h2
    rw [← hlen] at h2
    have hcs : occCount (startBanner n) allText = 1 := by
      rw [hframe, occ_frames_sb n texts 1 (fun t ht => (hbf t ht n).1),
        if_pos ⟨h1, by omega⟩]
    have hce : occCount (endBanner n) allText = 1 := by
      rw [hframe, occ_frames_eb n texts 1 (fun t ht => (hbf t ht n).2),
        if_pos ⟨h1, by omega⟩]
    refine ⟨hcs, hce, ?_⟩
    have hi : n - 1 < texts.length := by omega
    have hdrop : texts.drop (n - 1) = texts.get ⟨n - 1, hi⟩ :: texts.drop (n - 1 + 1) := by
      rw [List.drop_eq_getElem_cons hi]
      rfl
    have hsplit : texts = texts.take (n - 1) ++ (texts.get ⟨n - 1, hi⟩ :: texts.drop (n - 1 + 1)) := by
      conv_lhs => rw [← List.take_append_drop (n - 1) texts]
      rw [hdrop]
    have hlen_take : (texts.take (n - 1)).length = n - 1 := by
      rw [List.length_take]
      omega
    have h1i : 1 + (n - 1) = n := by omega
    have hfr : frames 1 texts = frames 1 (texts.take (n - 1))
        ++ frames n (texts.get ⟨n - 1, hi⟩ :: texts.drop (n - 1 + 1)) := by
      conv_lhs => rw [hsplit]
      rw [frames_append, hlen_take, h1i]
    refine ⟨frames 1 (texts.take (n - 1)) ++ (billHeader n ++ (texts.get ⟨n - 1, hi⟩ ++
        ('\n' :: (eqLine ++ ['\n'])))),
      '\n' :: (eqLine ++ ('\n' :: '\n' :: frames (n + 1) (texts.drop (n - 1 + 1)))), ?_, ?_, ?_⟩
    · rw [hframe, hfr, frames_cons]
      simp only [billFooter, List.append_assoc, List.cons_append, List.nil_append]
    · have hP : frames 1 (texts.take (n - 1)) ++ (billHeader n ++ (texts.get ⟨n - 1, hi⟩ ++
          ('\n' :: (eqLine ++ ['\n']))))
          = frames 1 (texts.take (n - 1)) ++ '\n' :: ('\n' ::
            ((eqLine ++ ('\n' :: (startBanner n ++ ('\n' :: (eqLine ++ ['\n', '\n']))))) ++
              (texts.get ⟨n - 1, hi⟩ ++ ('\n' :: (eqLine ++ ['\n']))))) := rfl
      rw [hP, occ_append_nl _ _ (sb_ne_nil n) (nl_not_in_sb n)]
      have hF1 : occCount (startBanner n) (frames 1 (texts.take (n - 1))) = 0 := by
        rw [occ_frames_sb n _ 1
          (fun t ht => (hbf t ((List.take_sublist _ texts).subset ht) n).1),
          if_neg (by rw [hlen_take]; omega)]
      rw [hF1]
      rw [occ_cons_of_head_ne (sb_shape n) (by decide)]
      have hnorm : (eqLine ++ ('\n' :: (startBanner n ++ ('\n' :: (eqLine ++ ['\n', '\n']))))) ++
            (texts.get ⟨n - 1, hi⟩ ++ ('\n' :: (eqLine ++ ['\n'])))
          = eqLine ++ ('\n' :: (startBanner n ++ ('\n' :: (eqLine ++ ('\n' :: '\n' ::
              (texts.get ⟨n - 1, hi⟩ ++ ('\n' :: (eqLine ++ ['\n'])))))))) := by
        simp [List.append_assoc]
      rw [hnorm, occ_append_head_notin _ (sb_shape n) b_not_in_eqLine,
        occ_cons_of_head_ne (sb_shape n) (by decide),
        occ_append_nl _ _ (sb_ne_nil n) (nl_not_in_sb n), occ_sb_sb n n, if_pos rfl,
        occ_append_head_notin _ (sb_shape n) b_not_in_eqLine,
        occ_cons_of_head_ne (sb_shape n) (by decide),
        occ_cons_of_head_ne (sb_shape n) (by decide),
        occ_append_nl _ _ (sb_ne_nil n) (nl_not_in_sb n),
        (hbf _ (List.get_mem texts (n - 1) hi) n).1,
        occ_append_head_notin _ (sb_shape n) b_not_in_eqLine,
        occ_cons_of_head_ne (sb_shape n) (by decide), occ_nil]
    · intro hlt
      rw [← hlen] at hlt
      rw [occ_cons_of_head_ne (sb_shape (n + 1)) (by decide),
        occ_append_head_notin _ (sb_shape (n + 1)) b_not_in_eqLine,
        occ_cons_of_head_ne (sb_shape (n + 1)) (by decide),
        occ_cons_of_head_ne (sb_shape (n + 1)) (by decide),
        occ_frames_sb (n + 1) _ (n + 1)
          (fun t ht => (hbf t ((List.drop_sublist _ texts).subset ht) (n + 1)).1),
        if_pos ⟨by omega, by rw [List.length_drop]; omega⟩]
  · intro n hn
    constructor
    · rw [hframe, occ_frames_sb n texts 1 (fun t ht => (hbf t ht n).1),
        if_neg (by omega)]
    · rw [hframe, occ_frames_eb n texts 1 (fun t ht => (hbf t ht n).2),
        if_neg (by omega)]

/-- Witness for C4: the benign oracle (every OCR call reads "x") on two image
files satisfies both hypotheses, and the framed text has exactly the claimed
banner structure for N = 2. -/
theorem C4_banner_framing_witness :
    oracleBFree oracleOkX ∧
    (∃ texts : List (List Char),
      texts.length = ([fileJpg, filePng] : List UploadFile).length ∧
      okPayload (processLoop oracleOkX [fileJpg, filePng] 1).2 = frames 1 texts ∧
      (∀ n, 1 ≤ n → n ≤ ([fileJpg, filePng] : List UploadFile).length →
        occCount (startBanner n) (okPayload (processLoop oracleOkX [fileJpg, filePng] 1).2) = 1 ∧
        occCount (endBanner n) (okPayload (processLoop oracleOkX [fileJpg, filePng] 1).2) = 1 ∧
        ∃ P Q, okPayload (processLoop oracleOkX [fileJpg, filePng] 1).2
            = P ++ (endBanner n ++ Q) ∧
          occCount (startBanner n) P = 1 ∧
          (n < ([fileJpg, filePng] : List UploadFile).length →
            occCount (startBanner (n + 1)) Q = 1)) ∧
      (∀ n, ([fileJpg, filePng] : List UploadFile).length < n ∨ n = 0 →
        occCount (startBanner n) (okPayload (processLoop oracleOkX [fileJpg, filePng] 1).2) = 0 ∧
        occCount (endBanner n) (okPayload (processLoop oracleOkX [fileJpg, filePng] 1).2) = 0)) := by
  have hO : oracleBFree oracleOkX := by
    intro img cfg t ht n
    have hx : ("x".data) = t := by
      simpa [oracleOkX] using ht
    subst hx
    exact ⟨occ_zero_of_head_notin ⟨_, sb_cons n⟩ (by decide),
      occ_zero_of_head_notin ⟨_, eb_cons n⟩ (by decide)⟩
  have hloop : (processLoop oracleOkX [fileJpg, filePng] 1).2
      = .ok (okPayload (processLoop oracleOkX [fileJpg, filePng] 1).2) := rfl
  exact ⟨hO, C4_banner_framing oracleOkX [fileJpg, filePng] _ hO hloop⟩

end BillsOCR
